import Mathlib

/-!
Verification of the FFT/CQT audio-analysis engine in src/FFT/fft.cpp.

The C++ file holds process-wide state (twiddle tables, a bit-reversal index
table, a CQT kernel bank) and exposes initFFT / fft / ifft / initCQT / cqt /
freeFFT / freeCQT.  We embed that state as an explicit `EngineState` value
threaded through every operation; `float` arithmetic is idealised as exact
real arithmetic, `int` parameters are `ℤ`, nullable pointers to the internal
tables are `Option`, and caller buffers (raw float pointers) are total maps
`ℕ → ℝ` mutated by pointwise update.
-/

namespace Autotab

/-- Caller-supplied sample buffer (a `float*` of the agreed length). -/
def Buf : Type := ℕ → ℝ

/-- `isPowerOfTwo` from fft.cpp: `(n > 0) && ((n & (n - 1)) == 0)`. -/
def isPowerOfTwo (n : ℤ) : Bool :=
  decide (0 < n) && decide (Int.land n (n - 1) = 0)

/-! ### Powers of two and the `n & (n-1)` trick -/

theorem testBit_false_of_land_pred {n : ℕ} (h : n &&& (n - 1) = 0) (i : ℕ) :
    (n.testBit i && (n - 1).testBit i) = false := by
  have := congrArg (fun x => Nat.testBit x i) h
  simpa [Nat.testBit_land, Nat.zero_testBit] using this

theorem pow_two_of_land_pred : ∀ n : ℕ, 0 < n → n &&& (n - 1) = 0 → ∃ m : ℕ, n = 2 ^ m := by
  intro n
  induction n using Nat.strong_induction_on with
  | _ n ih =>
    intro hpos h
    rcases Nat.even_or_odd n with he | ho
    · -- n = 2 * k with k ≥ 1; peel the low zero bit and recurse
      obtain ⟨k, hk⟩ := he
      have hk2 : n = 2 * k := by omega
      have hkpos : 0 < k := by omega
      have hbit : ∀ i, (k.testBit i && (k - 1).testBit i) = false := by
        intro i
        have h2 := testBit_false_of_land_pred h (i + 1)
        have e1 : n.testBit (i + 1) = k.testBit i := by
          rw [Nat.testBit_succ]
          congr 1
          omega
        have e2 : (n - 1).testBit (i + 1) = (k - 1).testBit i := by
          rw [Nat.testBit_succ]
          congr 1
          omega
        rw [e1, e2] at h2
        exact h2
      have hland : k &&& (k - 1) = 0 := by
        refine Nat.eq_of_testBit_eq fun i => ?_
        rw [Nat.testBit_land, Nat.zero_testBit, hbit]
      obtain ⟨m, hm⟩ := ih k (by omega) hkpos hland
      exact ⟨m + 1, by rw [hk2, hm, pow_succ]; ring⟩
    · -- n odd: either n = 1 or the land is nonzero
      rcases Nat.lt_or_ge n 2 with h1 | h2
      · exact ⟨0, by omega⟩
      · obtain ⟨k, hk⟩ := ho
        have hkpos : 0 < k := by omega
        -- bit i+1 of both n and n-1 is bit i of k, so k must be 0
        have hbit : ∀ i, k.testBit i = false := by
          intro i
          have h2 := testBit_false_of_land_pred h (i + 1)
          have e1 : n.testBit (i + 1) = k.testBit i := by
            rw [Nat.testBit_succ]
            congr 1
            omega
          have e2 : (n - 1).testBit (i + 1) = k.testBit i := by
            rw [Nat.testBit_succ]
            congr 1
            omega
          rw [e1, e2, Bool.and_self] at h2
          exact h2
        have : k = 0 := Nat.eq_of_testBit_eq fun i => by rw [hbit, Nat.zero_testBit]
        omega

theorem land_pred_pow_two (m : ℕ) : (2 ^ m) &&& (2 ^ m - 1) = 0 := by
  refine Nat.eq_of_testBit_eq fun i => ?_
  rw [Nat.testBit_land, Nat.zero_testBit]
  rcases eq_or_ne i m with rfl | hne
  · have h2 : (2 ^ i - 1).testBit i = false :=
      Nat.testBit_lt_two_pow (by have := Nat.one_le_two_pow (n := i); omega)
    rw [h2, Bool.and_false]
  · have h1 : (2 ^ m).testBit i = false := Nat.testBit_two_pow_of_ne (Ne.symm hne)
    rw [h1, Bool.false_and]

theorem isPowerOfTwo_iff (n : ℤ) : isPowerOfTwo n = true ↔ ∃ m : ℕ, n = 2 ^ m := by
  constructor
  · intro h
    rw [isPowerOfTwo, Bool.and_eq_true, decide_eq_true_eq, decide_eq_true_eq] at h
    obtain ⟨hpos, hland⟩ := h
    set a : ℕ := n.toNat with ha
    have hn : (a : ℤ) = n := Int.toNat_of_nonneg (le_of_lt hpos)
    have hland2 : a &&& (a - 1) = 0 := by
      have hapos : 0 < a := by omega
      have h1 : Int.land (a : ℤ) ((a - 1 : ℕ) : ℤ) = ((a &&& (a - 1) : ℕ) : ℤ) := rfl
      have h2 : ((a - 1 : ℕ) : ℤ) = n - 1 := by omega
      rw [h2, hn] at h1
      omega
    obtain ⟨m, hm⟩ := pow_two_of_land_pred a (by omega) hland2
    exact ⟨m, by rw [← hn, hm]; push_cast; ring⟩
  · rintro ⟨m, rfl⟩
    rw [isPowerOfTwo, Bool.and_eq_true, decide_eq_true_eq, decide_eq_true_eq]
    constructor
    · positivity
    · have h1 : ((2 : ℤ) ^ m) = ((2 ^ m : ℕ) : ℤ) := by push_cast; ring
      have h2 : ((2 : ℤ) ^ m) - 1 = ((2 ^ m - 1 : ℕ) : ℤ) := by
        have : (1 : ℕ) ≤ 2 ^ m := Nat.one_le_two_pow
        push_cast [this]
        ring
      rw [h2, h1]
      have h3 : Int.land ((2 ^ m : ℕ) : ℤ) ((2 ^ m - 1 : ℕ) : ℤ) =
          (((2 ^ m) &&& (2 ^ m - 1) : ℕ) : ℤ) := rfl
      rw [h3, land_pred_pow_two, Nat.cast_zero]

/-! ### The incremental bit-reversal generator from initFFT -/

/-- One execution of `while (j & bit) { j ^= bit; bit >>= 1; } j ^= bit;`. -/
def bitIncr (j bit : ℕ) : ℕ :=
  if j &&& bit ≠ 0 then bitIncr (j ^^^ bit) (bit / 2) else j ^^^ bit
termination_by bit
decreasing_by
  have hbit : bit ≠ 0 := by
    intro h0
    simp [h0] at *
  omega

/-- The list of successive `j` values stored by the generation loop in
initFFT: `cnt` remaining iterations starting from accumulator `j`,
with `n >> 1` as the initial mask of each increment. -/
def bitrevFrom (n : ℕ) : ℕ → ℕ → List ℕ
  | 0, _ => []
  | cnt + 1, j => j :: bitrevFrom n cnt (bitIncr j (n / 2))

/-- The full contents of `bitReversalIndices` built by `initFFT(n)`. -/
def buildBitrev (n : ℕ) : List ℕ := bitrevFrom n n 0

/-- Mathematical bit reversal of the low `m` bits of `i`. -/
def bitRev : ℕ → ℕ → ℕ
  | 0, _ => 0
  | m + 1, i => (i % 2) * 2 ^ m + bitRev m (i / 2)

theorem bitRev_lt (m : ℕ) : ∀ i, bitRev m i < 2 ^ m := by
  induction m with
  | zero => intro i; simp [bitRev]
  | succ m ih =>
    intro i
    have h1 := ih (i / 2)
    have h2 : i % 2 ≤ 1 := by omega
    calc bitRev (m + 1) i = (i % 2) * 2 ^ m + bitRev m (i / 2) := rfl
      _ ≤ 1 * 2 ^ m + bitRev m (i / 2) := by
          exact Nat.add_le_add_right (Nat.mul_le_mul_right _ h2) _
      _ < 2 ^ (m + 1) := by
          rw [pow_succ]
          omega

theorem bitRev_zero_arg (m : ℕ) : bitRev m 0 = 0 := by
  induction m with
  | zero => rfl
  | succ m ih => simp [bitRev, ih]

/-- MSB-first unfolding of `bitRev`. -/
theorem bitRev_succ_msb (m j : ℕ) :
    bitRev (m + 1) j = 2 * bitRev m (j % 2 ^ m) + (j / 2 ^ m) % 2 := by
  induction m generalizing j with
  | zero => simp [bitRev]
  | succ m ih =>
    show (j % 2) * 2 ^ (m + 1) + bitRev (m + 1) (j / 2) = _
    rw [ih (j / 2)]
    have e1 : j % 2 ^ (m + 1) % 2 = j % 2 :=
      Nat.mod_mod_of_dvd j (dvd_pow_self 2 (Nat.succ_ne_zero m))
    have e2 : j % 2 ^ (m + 1) / 2 = j / 2 % 2 ^ m := by
      have h : (2 : ℕ) ^ (m + 1) = 2 * 2 ^ m := by rw [pow_succ]; ring
      rw [h, Nat.mod_mul_right_div_self]
    have e3 : j / 2 / 2 ^ m = j / 2 ^ (m + 1) := by
      rw [Nat.div_div_eq_div_mul]
      congr 1
      rw [pow_succ]
      ring
    show (j % 2) * 2 ^ (m + 1) + (2 * bitRev m (j / 2 % 2 ^ m) + j / 2 / 2 ^ m % 2) =
      2 * ((j % 2 ^ (m + 1) % 2) * 2 ^ m + bitRev m (j % 2 ^ (m + 1) / 2)) +
      j / 2 ^ (m + 1) % 2
    rw [e1, e2, e3, pow_succ]
    ring

theorem bitRev_bitRev {m i : ℕ} (h : i < 2 ^ m) : bitRev m (bitRev m i) = i := by
  induction m generalizing i with
  | zero =>
    have : i = 0 := by omega
    simp [this, bitRev]
  | succ m ih =>
    have hr : bitRev m (i / 2) < 2 ^ m := bitRev_lt m (i / 2)
    have hi2 : i / 2 < 2 ^ m := by
      have : (2 : ℕ) ^ (m + 1) = 2 * 2 ^ m := by rw [pow_succ]; ring
      omega
    have hpos : 0 < (2 : ℕ) ^ m := Nat.two_pow_pos m
    show bitRev (m + 1) ((i % 2) * 2 ^ m + bitRev m (i / 2)) = i
    rw [bitRev_succ_msb]
    have e1 : ((i % 2) * 2 ^ m + bitRev m (i / 2)) % 2 ^ m = bitRev m (i / 2) := by
      rw [Nat.add_comm, Nat.mul_comm, Nat.add_mul_mod_self_left, Nat.mod_eq_of_lt hr]
    have e2 : ((i % 2) * 2 ^ m + bitRev m (i / 2)) / 2 ^ m = i % 2 := by
      rw [Nat.add_comm, Nat.mul_comm, Nat.add_mul_div_left _ _ hpos,
        Nat.div_eq_of_lt hr, Nat.zero_add]
    rw [e1, e2, ih hi2]
    omega

theorem land_two_pow_of_lt {m r : ℕ} (h : r < 2 ^ m) : r &&& 2 ^ m = 0 := by
  rw [Nat.and_two_pow, Nat.testBit_lt_two_pow h]
  simp

theorem xor_two_pow_of_lt {m : ℕ} : ∀ {r : ℕ}, r < 2 ^ m → r ^^^ 2 ^ m = r + 2 ^ m := by
  induction m with
  | zero =>
    intro r h
    have : r = 0 := by omega
    simp [this]
  | succ m ih =>
    intro r h
    have hq : r / 2 < 2 ^ m := by
      have : (2 : ℕ) ^ (m + 1) = 2 * 2 ^ m := by rw [pow_succ]; ring
      omega
    have h1 : r = Nat.bit (decide (r % 2 = 1)) (r / 2) := by
      rw [Nat.bit_val]
      rcases Nat.mod_two_eq_zero_or_one r with hp | hp <;> simp [hp] <;> omega
    have h2 : (2 : ℕ) ^ (m + 1) = Nat.bit false (2 ^ m) := by
      rw [Nat.bit_val, pow_succ]
      simp
      ring
    calc r ^^^ 2 ^ (m + 1)
        = Nat.bit (decide (r % 2 = 1)) (r / 2) ^^^ Nat.bit false (2 ^ m) := by
          rw [← h1, ← h2]
      _ = Nat.bit (bne (decide (r % 2 = 1)) false) (r / 2 ^^^ 2 ^ m) :=
          Nat.xor_bit _ _ _ _
      _ = Nat.bit (decide (r % 2 = 1)) (r / 2 + 2 ^ m) := by
          rw [ih hq]
          simp
      _ = r + 2 ^ (m + 1) := by
          rw [Nat.bit_val, pow_succ]
          rcases Nat.mod_two_eq_zero_or_one r with hp | hp <;> simp [hp] <;> omega

/-- The incremental update in initFFT advances the reversed counter:
from `bitRev m i` it produces `bitRev m (i+1)` (wrapping at `2^m`). -/
theorem bitIncr_bitRev {m : ℕ} : ∀ i, i < 2 ^ m →
    bitIncr (bitRev m i) (2 ^ m / 2) = bitRev m ((i + 1) % 2 ^ m) := by
  induction m with
  | zero =>
    intro i hi
    have : i = 0 := by omega
    simp [this, bitIncr, bitRev_zero_arg]
  | succ m ih =>
    intro i hi
    have hr : bitRev m (i / 2) < 2 ^ m := bitRev_lt m (i / 2)
    have hmask : (2 : ℕ) ^ (m + 1) / 2 = 2 ^ m := by
      rw [pow_succ, Nat.mul_div_cancel _ (by norm_num)]
    have hE : (2 : ℕ) ^ (m + 1) = 2 * 2 ^ m := by rw [pow_succ]; ring
    have hpos : 0 < (2 : ℕ) ^ m := Nat.two_pow_pos m
    rw [hmask]
    rcases Nat.mod_two_eq_zero_or_one i with hpar | hpar
    · -- even i: the top reversed bit is clear, so the while loop exits at once
      have hj : bitRev (m + 1) i = bitRev m (i / 2) := by
        show (i % 2) * 2 ^ m + bitRev m (i / 2) = _
        rw [hpar]
        ring
      have hlt : i + 1 < 2 ^ (m + 1) := by omega
      rw [hj, bitIncr]
      rw [if_neg (by simp [land_two_pow_of_lt hr]), xor_two_pow_of_lt hr,
        Nat.mod_eq_of_lt hlt]
      show _ = ((i + 1) % 2) * 2 ^ m + bitRev m ((i + 1) / 2)
      have h1 : (i + 1) % 2 = 1 := by omega
      have h2 : (i + 1) / 2 = i / 2 := by omega
      rw [h1, h2]
      ring
    · -- odd i: clear the top reversed bit and recurse with the halved mask
      have hj : bitRev (m + 1) i = 2 ^ m + bitRev m (i / 2) := by
        show (i % 2) * 2 ^ m + bitRev m (i / 2) = _
        rw [hpar]
        ring
      have htop : (2 ^ m + bitRev m (i / 2)) &&& 2 ^ m = 2 ^ m := by
        rw [Nat.and_two_pow]
        have ht : (2 ^ m + bitRev m (i / 2)).testBit m = true := by
          rw [Nat.testBit_to_div_mod]
          have : (2 ^ m + bitRev m (i / 2)) / 2 ^ m = 1 := by
            rw [Nat.add_comm, Nat.add_div_right _ hpos, Nat.div_eq_of_lt hr]
          simp [this]
        rw [ht]
        simp
      have hxor : (2 ^ m + bitRev m (i / 2)) ^^^ 2 ^ m = bitRev m (i / 2) := by
        rw [Nat.add_comm, ← xor_two_pow_of_lt hr, Nat.xor_cancel_right]
      rw [hj, bitIncr, if_pos (by rw [htop]; positivity), hxor]
      have hi2 : i / 2 < 2 ^ m := by omega
      rw [ih (i / 2) hi2]
      rcases Nat.lt_or_ge (i + 1) (2 ^ (m + 1)) with hlt | hge
      · have h1 : (i + 1) % 2 ^ (m + 1) = i + 1 := Nat.mod_eq_of_lt hlt
        have h2 : (i / 2 + 1) % 2 ^ m = i / 2 + 1 := Nat.mod_eq_of_lt (by omega)
        rw [h1, h2]
        show _ = ((i + 1) % 2) * 2 ^ m + bitRev m ((i + 1) / 2)
        have h3 : (i + 1) % 2 = 0 := by omega
        have h4 : (i + 1) / 2 = i / 2 + 1 := by omega
        rw [h3, h4]
        ring
      · have h1 : i + 1 = 2 ^ (m + 1) := by omega
        have h2 : (i + 1) % 2 ^ (m + 1) = 0 := by rw [h1, Nat.mod_self]
        have h3 : i / 2 + 1 = 2 ^ m := by omega
        have h4 : (i / 2 + 1) % 2 ^ m = 0 := by rw [h3, Nat.mod_self]
        rw [h2, h4, bitRev_zero_arg, bitRev_zero_arg]

theorem bitrevFrom_eq {m : ℕ} : ∀ (cnt i : ℕ), i + cnt ≤ 2 ^ m →
    bitrevFrom (2 ^ m) cnt (bitRev m i) =
      (List.range cnt).map (fun t => bitRev m (i + t)) := by
  intro cnt
  induction cnt with
  | zero => intro i _; rfl
  | succ c ih =>
    intro i hcnt
    have hi : i < 2 ^ m := by omega
    show bitRev m i :: bitrevFrom (2 ^ m) c (bitIncr (bitRev m i) (2 ^ m / 2)) = _
    rw [bitIncr_bitRev i hi]
    rcases Nat.eq_zero_or_pos c with rfl | hc
    · simp [bitrevFrom, List.range_succ]
    · have h1 : (i + 1) % 2 ^ m = i + 1 := Nat.mod_eq_of_lt (by omega)
      rw [h1, ih (i + 1) (by omega), List.range_succ_eq_map, List.map_cons,
        List.map_map]
      congr 1
      apply List.map_congr_left
      intro t _
      simp only [Function.comp]
      congr 1
      omega

theorem buildBitrev_eq (m : ℕ) :
    buildBitrev (2 ^ m) = (List.range (2 ^ m)).map (bitRev m) := by
  have h0 : (0 : ℕ) = bitRev m 0 := (bitRev_zero_arg m).symm
  rw [buildBitrev, h0, bitrevFrom_eq (2 ^ m) 0 (by omega)]
  simp

theorem buildBitrev_getD {m i : ℕ} (h : i < 2 ^ m) :
    (buildBitrev (2 ^ m)).getD i 0 = bitRev m i := by
  rw [buildBitrev_eq, List.getD_eq_getElem?_getD, List.getElem?_map,
    List.getElem?_range h]
  rfl

/-! ### Engine state and the FFT transform -/

/-- The process-wide globals of fft.cpp: nullable twiddle/bit-reversal tables
and the two `std::vector<std::vector<float>>` kernel banks. -/
structure EngineState where
  twiddleReal : Option (ℕ → ℝ)
  twiddleImag : Option (ℕ → ℝ)
  bitReversalIndices : Option (ℕ → ℕ)
  cqtKernelReal : List (List ℝ)
  cqtKernelImag : List (List ℝ)

/-- The globals' values at program start. -/
def initialState : EngineState :=
  { twiddleReal := none, twiddleImag := none, bitReversalIndices := none,
    cqtKernelReal := [], cqtKernelImag := [] }

/-- Write one buffer cell (`buf[a] = v`). -/
def upd (f : Buf) (a : ℕ) (v : ℝ) : Buf := fun k => if k = a then v else f k

/-- `initFFT(n)`: reject non-powers of two, else build the twiddle tables
(`n/2` entries at angle `-2π i / n`) and the bit-reversal index table
(length `n`, incremental generation).  Entries outside the allocated
ranges model uninitialised memory as 0; fft only reads in range. -/
noncomputable def initFFT (s : EngineState) (nz : ℤ) : Bool × EngineState :=
  if isPowerOfTwo nz then
    let n := nz.toNat
    (true, { s with
      twiddleReal := some fun i =>
        if i < n / 2 then Real.cos (-2 * Real.pi * i / n) else 0,
      twiddleImag := some fun i =>
        if i < n / 2 then Real.sin (-2 * Real.pi * i / n) else 0,
      bitReversalIndices := some fun i =>
        if i < n then (buildBitrev n).getD i 0 else 0 })
  else (false, s)

/-- The in-place permutation pass of fft: for each `i < n`, swap entries `i`
and `j = bitReversalIndices[i]` when `i < j`. -/
def bitrevPermute (rev : ℕ → ℕ) (n : ℕ) (p : Buf × Buf) : Buf × Buf :=
  (List.range n).foldl (fun q i =>
    let j := rev i
    if i < j then
      (upd (upd q.1 i (q.1 j)) j (q.1 i), upd (upd q.2 i (q.2 j)) j (q.2 i))
    else q) p

/-- One butterfly of the innermost loop of fft, at block start `i`, offset
`j`, with `half = len/2` and twiddle stride `step = n/len`; the four
sequential in-place writes of the source are kept in order. -/
def butterfly (twR twI : ℕ → ℝ) (step half i : ℕ) (q : Buf × Buf) (j : ℕ) :
    Buf × Buf :=
  let even := i + j
  let odd := even + half
  let re := q.1 odd * twR (j * step) - q.2 odd * twI (j * step)
  let im := q.1 odd * twI (j * step) + q.2 odd * twR (j * step)
  let r1 := upd q.1 odd (q.1 even - re)
  let i1 := upd q.2 odd (q.2 even - im)
  (upd r1 even (r1 even + re), upd i1 even (i1 even + im))

/-- One stage of the iterative FFT (`for (i = 0; i < n; i += len)` over the
inner butterfly loop); the block starts are `0, len, 2·len, …` below `n`. -/
def stagePass (twR twI : ℕ → ℝ) (n len : ℕ) (q : Buf × Buf) : Buf × Buf :=
  ((List.range ((n + len - 1) / len)).map (fun b => b * len)).foldl
    (fun q2 i => (List.range (len / 2)).foldl
      (butterfly twR twI (n / len) (len / 2) i) q2) q

/-- The stage loop `for (len = 2; len <= n; len <<= 1)`; the loop variable
`len`, always a power of two, is carried as `len = 2^(s+1)`. -/
def stagesFrom (twR twI : ℕ → ℝ) (n : ℕ) (s : ℕ) (q : Buf × Buf) : Buf × Buf :=
  if 2 ^ (s + 1) ≤ n then
    stagesFrom twR twI n (s + 1) (stagePass twR twI n (2 ^ (s + 1)) q)
  else q
termination_by n + 1 - 2 ^ (s + 1)
decreasing_by
  have h1 : (2 : ℕ) ^ (s + 1) < 2 ^ (s + 1 + 1) :=
    Nat.pow_lt_pow_right (by norm_num) (by omega)
  omega

/-- The permutation pass followed by the butterfly stages. -/
def fftRun (twR twI : ℕ → ℝ) (rev : ℕ → ℕ) (n : ℕ) (q : Buf × Buf) : Buf × Buf :=
  stagesFrom twR twI n 0 (bitrevPermute rev n q)

/-- `fft(real, imag, n)`: fails (without touching anything) unless `n` is a
power of two and `twiddleReal` and `bitReversalIndices` are non-null,
exactly the guard of the source; otherwise transforms in place and
succeeds.  The source reads `twiddleImag` without a null test; as it is
always allocated together with `twiddleReal`, the read is modelled with a
zero default.  Returns (ok, real, imag, globals). -/
noncomputable def fft (s : EngineState) (real imag : Buf) (nz : ℤ) :
    Bool × Buf × Buf × EngineState :=
  match s.twiddleReal, s.bitReversalIndices with
  | some twR, some rev =>
    if isPowerOfTwo nz then
      let twI := s.twiddleImag.getD fun _ => 0
      let q := fftRun twR twI rev nz.toNat (real, imag)
      (true, q.1, q.2, s)
    else (false, real, imag, s)
  | _, _ => (false, real, imag, s)

/-- `ifft(real, imag, n)`: negate the imaginary buffer on `[0,n)`, run the
forward transform, then scale by `1/n` and negate the imaginary part again.
When the inner fft fails the already-negated buffers are returned, as in
the source (the negation loop has run by then). -/
noncomputable def ifft (s : EngineState) (real imag : Buf) (nz : ℤ) :
    Bool × Buf × Buf × EngineState :=
  if isPowerOfTwo nz then
    let n := nz.toNat
    let invN : ℝ := 1 / (nz : ℝ)
    let imNeg : Buf := fun i => if i < n then -imag i else imag i
    let r := fft s real imNeg nz
    if r.1 then
      (true, fun i => if i < n then r.2.1 i * invN else r.2.1 i,
        (fun i => if i < n then r.2.2.1 i * -invN else r.2.2.1 i), r.2.2.2)
    else (false, r.2.1, r.2.2.1, r.2.2.2)
  else (false, real, imag, s)

/-- `freeFFT()`: release the tables; always succeeds. -/
def freeFFT (s : EngineState) : Bool × EngineState :=
  (true, { s with
    twiddleReal := none
    twiddleImag := none
    bitReversalIndices := none })

/-- `freeCQT()`: clear the kernel banks; always succeeds. -/
def freeCQT (s : EngineState) : Bool × EngineState :=
  (true, { s with cqtKernelReal := [], cqtKernelImag := [] })

/-! ### The CQT engine -/

/-- `std::vector::resize(sz, v)`: truncate when shrinking, append copies of
`v` when growing; surviving entries are kept. -/
def resizeBank (l : List (List ℝ)) (sz : ℕ) (v : List ℝ) : List (List ℝ) :=
  if sz ≤ l.length then l.take sz else l ++ List.replicate (sz - l.length) v

/-- Center frequency of bin `k`: `minFreq * 2^(k / binsPerOctave)`. -/
noncomputable def cqtFreq (binsPerOctave : ℤ) (minFreq : ℝ) (k : ℕ) : ℝ :=
  minFreq * Real.rpow 2 ((k : ℝ) / (binsPerOctave : ℝ))

/-- Quality factor `Q = 1 / (2^(1/binsPerOctave) - 1)`. -/
noncomputable def cqtQ (binsPerOctave : ℤ) : ℝ :=
  1 / (Real.rpow 2 (1 / (binsPerOctave : ℝ)) - 1)

/-- `filterLen = (int)ceilf(Q*sampleRate/freq)`, clamped to at most `n`
(the int cast truncates; the argument is positive wherever this is used,
so the cast of the ceiling is the integer ceiling). -/
noncomputable def cqtFilterLen (n : ℤ) (Q sampleRate freq : ℝ) : ℤ :=
  let fl := ⌈Q * sampleRate / freq⌉
  if fl > n then n else fl

/-- Hann window factor `0.5 - 0.5*cos(2π i / (filterLen-1))`; the source
computes `1/(filterLen-1)` first (a division by zero when filterLen = 1,
modelled by Lean's `1/0 = 0` convention). -/
noncomputable def cqtWindow (filterLen : ℤ) (i : ℕ) : ℝ :=
  0.5 - 0.5 * Real.cos (2 * Real.pi * i * (1 / ((filterLen : ℝ) - 1)))

/-- The windowed complex exponential written into `tempReal` before the
kernel FFT; zero outside `[0, filterLen)`. -/
noncomputable def cqtTempReal (filterLen : ℤ) (freq sampleRate : ℝ) : Buf :=
  fun i => if (i : ℤ) < filterLen then
    cqtWindow filterLen i *
      Real.cos (2 * Real.pi * freq * ((i : ℝ) - ((filterLen : ℝ) - 1) / 2) / sampleRate)
  else 0

/-- The imaginary part of the windowed complex exponential. -/
noncomputable def cqtTempImag (filterLen : ℤ) (freq sampleRate : ℝ) : Buf :=
  fun i => if (i : ℤ) < filterLen then
    cqtWindow filterLen i *
      Real.sin (2 * Real.pi * freq * ((i : ℝ) - ((filterLen : ℝ) - 1) / 2) / sampleRate)
  else 0

/-- The per-bin loop of initCQT over the remaining bin indices `ks`:
skip out-of-range bins, build the windowed basis, forward-transform it with
the engine's fft (aborting the whole call if that fails), and store the
spectrum in row `k` of the kernel bank. -/
noncomputable def initCQTLoop (nz bpo : ℤ) (sampleRate minFreq Q : ℝ) :
    List ℕ → EngineState → Bool × EngineState
  | [], s => (true, s)
  | k :: ks, s =>
    let freq := cqtFreq bpo minFreq k
    if freq ≤ 0 ∨ freq ≥ sampleRate / 2 then
      initCQTLoop nz bpo sampleRate minFreq Q ks s
    else
      let filterLen := cqtFilterLen nz Q sampleRate freq
      if filterLen ≤ 0 then initCQTLoop nz bpo sampleRate minFreq Q ks s
      else
        let r := fft s (cqtTempReal filterLen freq sampleRate)
          (cqtTempImag filterLen freq sampleRate) nz
        if r.1 then
          let n := nz.toNat
          let s2 := r.2.2.2
          initCQTLoop nz bpo sampleRate minFreq Q ks
            { s2 with
              cqtKernelReal := s2.cqtKernelReal.set k
                ((List.range n).map r.2.1 ++ (s2.cqtKernelReal.getD k []).drop n),
              cqtKernelImag := s2.cqtKernelImag.set k
                ((List.range n).map r.2.2.1 ++ (s2.cqtKernelImag.getD k []).drop n) }
        else (false, r.2.2.2)

/-- `initCQT(binsPerOctave, octaves, n, sampleRate, minFreq)`: reject any
non-positive argument, resize both kernel banks to `totalBins` rows of `n`
zeros, then run the per-bin construction loop. -/
noncomputable def initCQT (s : EngineState) (bpo oct nz : ℤ)
    (sampleRate minFreq : ℝ) : Bool × EngineState :=
  if bpo ≤ 0 ∨ oct ≤ 0 ∨ nz ≤ 0 ∨ sampleRate ≤ 0 ∨ minFreq ≤ 0 then (false, s)
  else
    let totalBins := (bpo * oct).toNat
    let zeroRow := List.replicate nz.toNat (0 : ℝ)
    let s1 := { s with
      cqtKernelReal := resizeBank s.cqtKernelReal totalBins zeroRow,
      cqtKernelImag := resizeBank s.cqtKernelImag totalBins zeroRow }
    initCQTLoop nz bpo sampleRate minFreq (cqtQ bpo) (List.range totalBins) s1

/-- The accumulated `sumReal` of one cqt bin (sequential float adds,
idealised over ℝ). -/
def cqtSumReal (inR inI : Buf) (kR kI : List ℝ) (n : ℕ) : ℝ :=
  (List.range n).foldl (fun a i => a + (inR i * kR.getD i 0 - inI i * kI.getD i 0)) 0

/-- The accumulated `sumImag` of one cqt bin. -/
def cqtSumImag (inR inI : Buf) (kR kI : List ℝ) (n : ℕ) : ℝ :=
  (List.range n).foldl (fun a i => a + (inR i * kI.getD i 0 + inI i * kR.getD i 0)) 0

/-- `cqt(inputReal, inputImag, outputReal, outputImag, n, binsPerOctave,
octaves)`: fail on non-positive scalars or when `totalBins` exceeds the
bank size, else write each bin's scaled correlation into the output
buffers.  Returns (ok, outputReal, outputImag, globals). -/
noncomputable def cqt (s : EngineState) (inR inI outR outI : Buf)
    (nz bpo oct : ℤ) : Bool × Buf × Buf × EngineState :=
  if bpo ≤ 0 ∨ oct ≤ 0 ∨ nz ≤ 0 then (false, outR, outI, s)
  else if bpo * oct > (s.cqtKernelReal.length : ℤ) then (false, outR, outI, s)
  else
    let n := nz.toNat
    let invN : ℝ := 1 / (nz : ℝ)
    let out := (List.range (bpo * oct).toNat).foldl (fun (o : Buf × Buf) k =>
      (upd o.1 k (cqtSumReal inR inI (s.cqtKernelReal.getD k [])
          (s.cqtKernelImag.getD k []) n * invN),
       upd o.2 k (cqtSumImag inR inI (s.cqtKernelReal.getD k [])
          (s.cqtKernelImag.getD k []) n * invN))) (outR, outI)
    (true, out.1, out.2, s)

/-! ### Frame and guard lemmas -/

theorem fft_state (s : EngineState) (re im : Buf) (nz : ℤ) :
    (fft s re im nz).2.2.2 = s := by
  unfold fft
  rcases htw : s.twiddleReal with _ | twR <;>
      rcases hrev : s.bitReversalIndices with _ | rev <;>
    simp only [htw, hrev]
  split <;> rfl

theorem ifft_state (s : EngineState) (re im : Buf) (nz : ℤ) :
    (ifft s re im nz).2.2.2 = s := by
  unfold ifft
  split
  · dsimp only
    split
    · exact fft_state _ _ _ _
    · exact fft_state _ _ _ _
  · rfl

theorem cqt_state (s : EngineState) (inR inI outR outI : Buf) (nz bpo oct : ℤ) :
    (cqt s inR inI outR outI nz bpo oct).2.2.2 = s := by
  unfold cqt
  split
  · rfl
  · split <;> rfl

theorem isPowerOfTwo_false_of_not_pow {nz : ℤ} (h : ∀ m : ℕ, nz ≠ 2 ^ m) :
    isPowerOfTwo nz = false := by
  rcases Bool.eq_false_or_eq_true (isPowerOfTwo nz) with hb | hb
  · obtain ⟨m, hm⟩ := (isPowerOfTwo_iff nz).mp hb
    exact absurd hm (h m)
  · exact hb

/-- C10: fft, ifft and cqt never modify the engine's internal state: the
twiddle table, bit-reversal table and kernel bank they return are exactly
the ones they were called with; only the caller-supplied buffers change. -/
theorem transforms_preserve_engine_state (s : EngineState)
    (re im inR inI outR outI : Buf) (nz bpo oct : ℤ) :
    (fft s re im nz).2.2.2 = s ∧ (ifft s re im nz).2.2.2 = s ∧
    (cqt s inR inI outR outI nz bpo oct).2.2.2 = s :=
  ⟨fft_state s re im nz, ifft_state s re im nz,
    cqt_state s inR inI outR outI nz bpo oct⟩

/-- C7: with the tables in their null state (before a successful initFFT or
after freeFFT), fft and ifft fail via the null check; freeFFT and freeCQT
succeed on every engine state whatsoever, are idempotent, and freeFFT
leaves the tables null. -/
theorem null_state_fails_safely (s : EngineState) (re im : Buf) (nz : ℤ)
    (h : s.twiddleReal = none ∨ s.bitReversalIndices = none) :
    (fft s re im nz).1 = false ∧ (ifft s re im nz).1 = false ∧
    ∀ s2 : EngineState,
      (freeFFT s2).1 = true ∧ (freeCQT s2).1 = true ∧
      freeFFT (freeFFT s2).2 = freeFFT s2 ∧ freeCQT (freeCQT s2).2 = freeCQT s2 ∧
      (freeFFT s2).2.twiddleReal = none ∧
      (freeFFT s2).2.bitReversalIndices = none := by
  have hfft : ∀ b1 b2 : Buf, (fft s b1 b2 nz).1 = false := by
    intro b1 b2
    unfold fft
    rcases htw : s.twiddleReal with _ | twR <;>
        rcases hrev : s.bitReversalIndices with _ | rev <;>
      simp only [htw, hrev]
    · exfalso
      rcases h with h1 | h1
      · rw [htw] at h1
        exact Option.some_ne_none _ h1
      · rw [hrev] at h1
        exact Option.some_ne_none _ h1
  refine ⟨hfft re im, ?_, fun s2 => ⟨rfl, rfl, rfl, rfl, rfl, rfl⟩⟩
  unfold ifft
  split
  · dsimp only
    rw [hfft re _]
    simp
  · rfl

/-- C5: a cqt call whose requested `totalBins` exceeds the kernel bank size
fails, leaving both output buffers exactly as passed in. -/
theorem cqt_fails_when_bank_too_small (s : EngineState)
    (inR inI outR outI : Buf) (nz bpo oct : ℤ)
    (h : bpo * oct > (s.cqtKernelReal.length : ℤ)) :
    cqt s inR inI outR outI nz bpo oct = (false, outR, outI, s) := by
  unfold cqt
  by_cases h1 : bpo ≤ 0 ∨ oct ≤ 0 ∨ nz ≤ 0
  · rw [if_pos h1]
  · rw [if_neg h1, if_pos h]

/-- C2 (amended): for every `n` that is not a power of two, initFFT, fft and
ifft fail and change nothing: the engine state and the caller buffers are
returned untouched.  (initCQT is excluded: it does not test `n` for being a
power of two; see the counterexample.) -/
theorem non_power_of_two_rejected (s : EngineState) (re im : Buf) (nz : ℤ)
    (h : ∀ m : ℕ, nz ≠ 2 ^ m) :
    initFFT s nz = (false, s) ∧ fft s re im nz = (false, re, im, s) ∧
    ifft s re im nz = (false, re, im, s) := by
  have hfalse : isPowerOfTwo nz = false := isPowerOfTwo_false_of_not_pow h
  refine ⟨?_, ?_, ?_⟩
  · unfold initFFT
    rw [hfalse]
    rfl
  · unfold fft
    rcases htw : s.twiddleReal with _ | twR <;>
        rcases hrev : s.bitReversalIndices with _ | rev <;>
      simp only [htw, hrev, hfalse]
    simp
  · unfold ifft
    rw [hfalse]
    simp

theorem cqtFreq_one_two_zero : cqtFreq 1 2 0 = 2 := by
  unfold cqtFreq
  norm_num [Real.rpow_zero]

/-- C2 (counterexample): `initCQT(1, 1, 3, 2, 2)` has `n = 3`, not a power
of two, yet returns success -- every bin is at or above Nyquist, so the
inner fft (which would have rejected `n = 3`) is never reached -- and it
still resizes the kernel bank, changing the prior engine state. -/
theorem initCQT_accepts_non_power_of_two :
    (∀ m : ℕ, (3 : ℤ) ≠ 2 ^ m) ∧
    (initCQT initialState 1 1 3 2 2).1 = true ∧
    (initCQT initialState 1 1 3 2 2).2.cqtKernelReal ≠
      initialState.cqtKernelReal := by
  have h3 : ∀ m : ℕ, (3 : ℤ) ≠ 2 ^ m := by
    intro m
    match m with
    | 0 => norm_num
    | 1 => norm_num
    | k + 2 =>
      have h4 : (4 : ℤ) ≤ 2 ^ (k + 2) := by
        calc (4 : ℤ) = 2 ^ 2 := by norm_num
          _ ≤ 2 ^ (k + 2) := pow_le_pow_right₀ (by norm_num) (by omega)
      omega
  have heval : initCQT initialState 1 1 3 2 2 =
      (true, { initialState with
        cqtKernelReal := [List.replicate 3 0]
        cqtKernelImag := [List.replicate 3 0] }) := by
    unfold initCQT
    rw [if_neg (by push_neg; norm_num)]
    have h1 : ((1 : ℤ) * 1).toNat = 1 := rfl
    have h2 : ((3 : ℤ)).toNat = 3 := rfl
    dsimp only [h1, h2]
    rw [initialState, resizeBank]
    norm_num [List.range_succ]
    rw [initCQTLoop.eq_def]
    dsimp only
    rw [if_pos (show cqtFreq 1 2 0 ≤ 0 ∨ cqtFreq 1 2 0 ≥ 2 / 2 from
      Or.inr (by rw [cqtFreq_one_two_zero]; norm_num))]
    rw [initCQTLoop.eq_def]
    rfl
  refine ⟨h3, ?_, ?_⟩
  · rw [heval]
  · rw [heval]
    simp [initialState]

/-- C9: the division by zero in initCQT's Hann window (`1/(filterLen-1)`
with `filterLen = 1`) is reachable with all-positive inputs: with
`initCQT(1, 1, 1, 100, 10)`, bin 0 has frequency 10, strictly inside
`(0, sampleRate/2)`, and its filter length, clamped to `n = 1`, is 1, so
the window computation divides by `filterLen - 1 = 0`. -/
theorem cqt_window_division_by_zero_reachable :
    (0 < (1 : ℤ) ∧ 0 < (100 : ℝ) ∧ 0 < (10 : ℝ)) ∧
    0 < cqtFreq 1 10 0 ∧ cqtFreq 1 10 0 < 100 / 2 ∧
    cqtFilterLen 1 (cqtQ 1) 100 (cqtFreq 1 10 0) = 1 ∧
    ((cqtFilterLen 1 (cqtQ 1) 100 (cqtFreq 1 10 0) : ℝ) - 1 = 0) := by
  have hfreq : cqtFreq 1 10 0 = 10 := by
    unfold cqtFreq
    norm_num [Real.rpow_zero]
  have hQ : cqtQ 1 = 1 := by
    unfold cqtQ
    norm_num [Real.rpow_one]
  have hfl : cqtFilterLen 1 (cqtQ 1) 100 (cqtFreq 1 10 0) = 1 := by
    unfold cqtFilterLen
    rw [hfreq, hQ]
    have hc : ⌈(1 : ℝ) * 100 / 10⌉ = (10 : ℤ) := by
      rw [show (1 : ℝ) * 100 / 10 = ((10 : ℤ) : ℝ) by norm_num, Int.ceil_intCast]
    dsimp only
    rw [hc]
    norm_num
  refine ⟨⟨by norm_num, by norm_num, by norm_num⟩, ?_, ?_, hfl, ?_⟩
  · rw [hfreq]; norm_num
  · rw [hfreq]; norm_num
  · rw [hfl]; norm_num

theorem null_state_fails_safely_witness :
    (initialState.twiddleReal = none ∨ initialState.bitReversalIndices = none) ∧
    ((fft initialState (fun _ => 0) (fun _ => 0) 8).1 = false ∧
     (ifft initialState (fun _ => 0) (fun _ => 0) 8).1 = false ∧
     ∀ s2 : EngineState,
       (freeFFT s2).1 = true ∧ (freeCQT s2).1 = true ∧
       freeFFT (freeFFT s2).2 = freeFFT s2 ∧ freeCQT (freeCQT s2).2 = freeCQT s2 ∧
       (freeFFT s2).2.twiddleReal = none ∧
       (freeFFT s2).2.bitReversalIndices = none) :=
  ⟨Or.inl rfl,
    null_state_fails_safely initialState (fun _ => 0) (fun _ => 0) 8 (Or.inl rfl)⟩

theorem cqt_fails_when_bank_too_small_witness :
    ((1 : ℤ) * 1 > (initialState.cqtKernelReal.length : ℤ)) ∧
    cqt initialState (fun _ => 0) (fun _ => 0) (fun _ => 0) (fun _ => 0) 4 1 1 =
      (false, (fun _ => 0 : Buf), (fun _ => 0 : Buf), initialState) :=
  ⟨by norm_num [initialState],
    cqt_fails_when_bank_too_small initialState (fun _ => 0) (fun _ => 0)
      (fun _ => 0) (fun _ => 0) 4 1 1 (by norm_num [initialState])⟩

theorem non_power_of_two_rejected_witness :
    (∀ m : ℕ, (3 : ℤ) ≠ 2 ^ m) ∧
    (initFFT initialState 3 = (false, initialState) ∧
     fft initialState (fun _ => 0) (fun _ => 0) 3 =
       (false, (fun _ => 0 : Buf), (fun _ => 0 : Buf), initialState) ∧
     ifft initialState (fun _ => 0) (fun _ => 0) 3 =
       (false, (fun _ => 0 : Buf), (fun _ => 0 : Buf), initialState)) := by
  have h3 : ∀ m : ℕ, (3 : ℤ) ≠ 2 ^ m := by
    intro m
    match m with
    | 0 => norm_num
    | 1 => norm_num
    | k + 2 =>
      have h4 : (4 : ℤ) ≤ 2 ^ (k + 2) := by
        calc (4 : ℤ) = 2 ^ 2 := by norm_num
          _ ≤ 2 ^ (k + 2) := pow_le_pow_right₀ (by norm_num) (by omega)
      omega
  exact ⟨h3, non_power_of_two_rejected initialState (fun _ => 0) (fun _ => 0) 3 h3⟩

/-! ### The cqt output formula -/

theorem foldl_add_eq_sum (g : ℕ → ℝ) : ∀ (N : ℕ) (a0 : ℝ),
    (List.range N).foldl (fun a i => a + g i) a0 = a0 + ∑ i ∈ Finset.range N, g i := by
  intro N
  induction N with
  | zero => intro a0; simp
  | succ N ih =>
    intro a0
    rw [List.range_succ, List.foldl_append, ih, Finset.sum_range_succ]
    simp
    ring

theorem cqtSumReal_eq_sum (inR inI : Buf) (kR kI : List ℝ) (n : ℕ) :
    cqtSumReal inR inI kR kI n =
      ∑ i ∈ Finset.range n, (inR i * kR.getD i 0 - inI i * kI.getD i 0) := by
  unfold cqtSumReal
  rw [foldl_add_eq_sum]
  ring

theorem cqtSumImag_eq_sum (inR inI : Buf) (kR kI : List ℝ) (n : ℕ) :
    cqtSumImag inR inI kR kI n =
      ∑ i ∈ Finset.range n, (inR i * kI.getD i 0 + inI i * kR.getD i 0) := by
  unfold cqtSumImag
  rw [foldl_add_eq_sum]
  ring

theorem upd_same (f : Buf) (a : ℕ) (v : ℝ) : upd f a v a = v := if_pos rfl

theorem upd_ne (f : Buf) {k a : ℕ} (v : ℝ) (h : k ≠ a) : upd f a v k = f k :=
  if_neg h

theorem foldl_upd_pair (fR fI : ℕ → ℝ) : ∀ (N : ℕ) (oR oI : Buf) (k : ℕ),
    (((List.range N).foldl
      (fun (o : Buf × Buf) k2 => (upd o.1 k2 (fR k2), upd o.2 k2 (fI k2)))
      (oR, oI)).1 k = if k < N then fR k else oR k) ∧
    (((List.range N).foldl
      (fun (o : Buf × Buf) k2 => (upd o.1 k2 (fR k2), upd o.2 k2 (fI k2)))
      (oR, oI)).2 k = if k < N then fI k else oI k) := by
  intro N
  induction N with
  | zero => intro oR oI k; simp
  | succ N ih =>
    intro oR oI k
    rw [List.range_succ, List.foldl_append]
    simp only [List.foldl_cons, List.foldl_nil]
    rcases eq_or_ne k N with rfl | hne
    · exact ⟨by rw [upd_same, if_pos (by omega)],
        by rw [upd_same, if_pos (by omega)]⟩
    · obtain ⟨ih1, ih2⟩ := ih oR oI k
      constructor
      · rw [upd_ne _ _ hne, ih1]
        rcases Nat.lt_or_ge k N with hk | hk
        · rw [if_pos hk, if_pos (by omega)]
        · rw [if_neg (by omega), if_neg (by omega)]
      · rw [upd_ne _ _ hne, ih2]
        rcases Nat.lt_or_ge k N with hk | hk
        · rw [if_pos hk, if_pos (by omega)]
        · rw [if_neg (by omega), if_neg (by omega)]

/-- C8 (amended): a cqt call with positive scalars and a large enough bank
succeeds, and bin `k` of the output is the plain (unconjugated) complex
inner product of the input spectrum with kernel row `k`, scaled by `1/n`:
out[k] = (Σ_i input[i] · kernel[k][i]) / n. -/
theorem cqt_output_formula (s : EngineState) (inR inI outR outI : Buf)
    (nz bpo oct : ℤ) (h1 : 0 < bpo) (h2 : 0 < oct) (h3 : 0 < nz)
    (h4 : bpo * oct ≤ (s.cqtKernelReal.length : ℤ)) :
    (cqt s inR inI outR outI nz bpo oct).1 = true ∧
    ∀ k, k < (bpo * oct).toNat →
      (cqt s inR inI outR outI nz bpo oct).2.1 k =
        (∑ i ∈ Finset.range nz.toNat,
          (inR i * (s.cqtKernelReal.getD k []).getD i 0 -
           inI i * (s.cqtKernelImag.getD k []).getD i 0)) * (1 / (nz : ℝ)) ∧
      (cqt s inR inI outR outI nz bpo oct).2.2.1 k =
        (∑ i ∈ Finset.range nz.toNat,
          (inR i * (s.cqtKernelImag.getD k []).getD i 0 +
           inI i * (s.cqtKernelReal.getD k []).getD i 0)) * (1 / (nz : ℝ)) := by
  have hg1 : ¬(bpo ≤ 0 ∨ oct ≤ 0 ∨ nz ≤ 0) := by push_neg; exact ⟨h1, h2, h3⟩
  have hg2 : ¬(bpo * oct > (s.cqtKernelReal.length : ℤ)) := not_lt.mpr h4
  unfold cqt
  rw [if_neg hg1, if_neg hg2]
  dsimp only
  refine ⟨rfl, fun k hk => ?_⟩
  obtain ⟨e1, e2⟩ := foldl_upd_pair
    (fun k2 => cqtSumReal inR inI (s.cqtKernelReal.getD k2 [])
      (s.cqtKernelImag.getD k2 []) nz.toNat * (1 / (nz : ℝ)))
    (fun k2 => cqtSumImag inR inI (s.cqtKernelReal.getD k2 [])
      (s.cqtKernelImag.getD k2 []) nz.toNat * (1 / (nz : ℝ)))
    (bpo * oct).toNat outR outI k
  refine ⟨?_, ?_⟩
  · rw [e1, if_pos hk, cqtSumReal_eq_sum]
  · rw [e2, if_pos hk, cqtSumImag_eq_sum]

/-- Modelled from the spec's words, for comparison with the code: the
imaginary part of `(1/n) · Σ_i input[i] · conj(kernel[k][i])`
(with input = a+bi and kernel = c+di this is `Σ (b·c - a·d)`, scaled). -/
def cqtConjOutImag (inR inI : Buf) (kR kI : List ℝ) (n : ℕ) (invN : ℝ) : ℝ :=
  (∑ i ∈ Finset.range n, (inI i * kR.getD i 0 - inR i * kI.getD i 0)) * invN

/-- A one-bin kernel bank whose kernel is the pure imaginary `i`. -/
def conjCounterState : EngineState :=
  { twiddleReal := none, twiddleImag := none, bitReversalIndices := none,
    cqtKernelReal := [[0]], cqtKernelImag := [[1]] }

/-- C8 (counterexample): with kernel `= i` and input `= 1` (n = 1), the code
writes `outputImag[0] = 1` (plain product `input·kernel`), while the
claimed conjugated correlation `Σ input·conj(kernel) / n` has imaginary
part `-1`; the claim's formula disagrees with the code. -/
theorem cqt_conjugation_mismatch :
    (cqt conjCounterState (fun _ => 1) (fun _ => 0) (fun _ => 0) (fun _ => 0)
      1 1 1).1 = true ∧
    (cqt conjCounterState (fun _ => 1) (fun _ => 0) (fun _ => 0) (fun _ => 0)
      1 1 1).2.2.1 0 = 1 ∧
    cqtConjOutImag (fun _ => 1) (fun _ => 0) [0] [1] 1 (1 / ((1 : ℤ) : ℝ)) = -1 ∧
    (1 : ℝ) ≠ -1 := by
  have hg1 : ¬((1 : ℤ) ≤ 0 ∨ (1 : ℤ) ≤ 0 ∨ (1 : ℤ) ≤ 0) := by norm_num
  have hg2 : ¬((1 : ℤ) * 1 > (conjCounterState.cqtKernelReal.length : ℤ)) := by
    norm_num [conjCounterState]
  refine ⟨?_, ?_, ?_, by norm_num⟩
  · unfold cqt
    rw [if_neg hg1, if_neg hg2]
  · unfold cqt
    rw [if_neg hg1, if_neg hg2]
    dsimp only
    have h1 : ((1 : ℤ) * 1).toNat = 1 := rfl
    rw [h1]
    rw [show List.range 1 = [0] from rfl]
    simp only [List.foldl_cons, List.foldl_nil]
    rw [show ∀ b : Buf, ∀ v : ℝ, upd b 0 v 0 = v from fun b v => if_pos rfl]
    unfold cqtSumImag
    rw [show List.range (Int.toNat 1) = [0] from rfl]
    norm_num [conjCounterState]
  · unfold cqtConjOutImag
    norm_num

theorem cqt_output_formula_witness :
    ((0 : ℤ) < 1 ∧ (0 : ℤ) < 1 ∧ (0 : ℤ) < 1 ∧
      (1 : ℤ) * 1 ≤ (conjCounterState.cqtKernelReal.length : ℤ)) ∧
    ((cqt conjCounterState (fun _ => 2) (fun _ => 3) (fun _ => 0) (fun _ => 0)
      1 1 1).1 = true ∧
    ∀ k, k < ((1 : ℤ) * 1).toNat →
      (cqt conjCounterState (fun _ => 2) (fun _ => 3) (fun _ => 0) (fun _ => 0)
        1 1 1).2.1 k =
        (∑ i ∈ Finset.range (1 : ℤ).toNat,
          ((fun _ => (2 : ℝ)) i * ((conjCounterState.cqtKernelReal.getD k []).getD i 0) -
           (fun _ => (3 : ℝ)) i * ((conjCounterState.cqtKernelImag.getD k []).getD i 0))) *
          (1 / ((1 : ℤ) : ℝ)) ∧
      (cqt conjCounterState (fun _ => 2) (fun _ => 3) (fun _ => 0) (fun _ => 0)
        1 1 1).2.2.1 k =
        (∑ i ∈ Finset.range (1 : ℤ).toNat,
          ((fun _ => (2 : ℝ)) i * ((conjCounterState.cqtKernelImag.getD k []).getD i 0) +
           (fun _ => (3 : ℝ)) i * ((conjCounterState.cqtKernelReal.getD k []).getD i 0))) *
          (1 / ((1 : ℤ) : ℝ))) :=
  ⟨⟨by norm_num, by norm_num, by norm_num, by norm_num [conjCounterState]⟩,
    cqt_output_formula conjCounterState (fun _ => 2) (fun _ => 3) (fun _ => 0)
      (fun _ => 0) 1 1 1 (by norm_num) (by norm_num) (by norm_num)
      (by norm_num [conjCounterState])⟩

/-! ### Skipped CQT bins keep their zero kernels -/

theorem resizeBank_nil (sz : ℕ) (v : List ℝ) :
    resizeBank [] sz v = List.replicate sz v := by
  unfold resizeBank
  rcases Nat.eq_zero_or_pos sz with rfl | h
  · simp
  · rw [if_neg (by simp; omega)]
    simp

theorem getD_set_ne (l : List (List ℝ)) {j k : ℕ} (v : List ℝ) (h : j ≠ k) :
    (l.set j v).getD k [] = l.getD k [] := by
  rw [List.getD_eq_getElem?_getD, List.getD_eq_getElem?_getD,
    List.getElem?_set_ne h]

theorem getD_replicate_of_lt {t k : ℕ} (v : List ℝ) (h : k < t) :
    (List.replicate t v).getD k [] = v := by
  rw [List.getD_eq_getElem?_getD, List.getElem?_replicate, if_pos h]
  rfl

theorem initCQTLoop_skip_getD (nz bpo : ℤ) (sR mF Q : ℝ) (k : ℕ)
    (hskip : cqtFreq bpo mF k ≤ 0 ∨ cqtFreq bpo mF k ≥ sR / 2) :
    ∀ (ks : List ℕ) (s : EngineState),
      (initCQTLoop nz bpo sR mF Q ks s).2.cqtKernelReal.getD k [] =
        s.cqtKernelReal.getD k [] ∧
      (initCQTLoop nz bpo sR mF Q ks s).2.cqtKernelImag.getD k [] =
        s.cqtKernelImag.getD k [] := by
  intro ks
  induction ks with
  | nil => intro s; exact ⟨rfl, rfl⟩
  | cons j ks ih =>
    intro s
    rw [initCQTLoop.eq_def]
    dsimp only
    by_cases hc1 : cqtFreq bpo mF j ≤ 0 ∨ cqtFreq bpo mF j ≥ sR / 2
    · rw [if_pos hc1]
      exact ih s
    · rw [if_neg hc1]
      by_cases hc2 : cqtFilterLen nz Q sR (cqtFreq bpo mF j) ≤ 0
      · rw [if_pos hc2]
        exact ih s
      · rw [if_neg hc2]
        have hjk : j ≠ k := by
          intro he
          rw [he] at hc1
          exact hc1 hskip
        have hs2 : (fft s (cqtTempReal (cqtFilterLen nz Q sR (cqtFreq bpo mF j))
            (cqtFreq bpo mF j) sR) (cqtTempImag (cqtFilterLen nz Q sR
            (cqtFreq bpo mF j)) (cqtFreq bpo mF j) sR) nz).2.2.2 = s :=
          fft_state _ _ _ _
        by_cases hc3 : (fft s (cqtTempReal (cqtFilterLen nz Q sR (cqtFreq bpo mF j))
            (cqtFreq bpo mF j) sR) (cqtTempImag (cqtFilterLen nz Q sR
            (cqtFreq bpo mF j)) (cqtFreq bpo mF j) sR) nz).1 = true
        · rw [if_pos hc3]
          obtain ⟨e1, e2⟩ := ih { (fft s _ _ nz).2.2.2 with
            cqtKernelReal := (fft s _ _ nz).2.2.2.cqtKernelReal.set j _,
            cqtKernelImag := (fft s _ _ nz).2.2.2.cqtKernelImag.set j _ }
          rw [e1, e2]
          dsimp only
          rw [hs2]
          exact ⟨getD_set_ne _ _ hjk, getD_set_ne _ _ hjk⟩
        · rw [if_neg hc3]
          rw [hs2]
          exact ⟨rfl, rfl⟩

theorem initCQTLoop_all_skip (nz bpo : ℤ) (sR mF Q : ℝ) :
    ∀ (ks : List ℕ) (s : EngineState),
      (∀ j ∈ ks, cqtFreq bpo mF j ≤ 0 ∨ cqtFreq bpo mF j ≥ sR / 2) →
      (initCQTLoop nz bpo sR mF Q ks s).1 = true := by
  intro ks
  induction ks with
  | nil => intro s _; rfl
  | cons j ks ih =>
    intro s hall
    rw [initCQTLoop.eq_def]
    dsimp only
    rw [if_pos (hall j (by simp))]
    exact ih s fun t ht => hall t (by simp [ht])

/-- C6: in a successful initCQT run that starts from an empty kernel bank,
every bin whose center frequency is non-positive or at/above Nyquist keeps
its all-zero length-`n` kernel, and if every bin is out of range the call
still succeeds (skipping is not an error). -/
theorem initCQT_skipped_bins (s : EngineState) (bpo oct nz : ℤ) (sR mF : ℝ)
    (h1 : 0 < bpo) (h2 : 0 < oct) (h3 : 0 < nz) (h4 : 0 < sR) (h5 : 0 < mF)
    (hempR : s.cqtKernelReal = []) (hempI : s.cqtKernelImag = []) :
    (∀ s2 k, initCQT s bpo oct nz sR mF = (true, s2) → k < (bpo * oct).toNat →
      (cqtFreq bpo mF k ≤ 0 ∨ cqtFreq bpo mF k ≥ sR / 2) →
      s2.cqtKernelReal.getD k [] = List.replicate nz.toNat 0 ∧
      s2.cqtKernelImag.getD k [] = List.replicate nz.toNat 0) ∧
    ((∀ j, j < (bpo * oct).toNat →
        (cqtFreq bpo mF j ≤ 0 ∨ cqtFreq bpo mF j ≥ sR / 2)) →
      (initCQT s bpo oct nz sR mF).1 = true) := by
  have hguard : ¬(bpo ≤ 0 ∨ oct ≤ 0 ∨ nz ≤ 0 ∨ sR ≤ 0 ∨ mF ≤ 0) := by
    push_neg
    exact ⟨h1, h2, h3, h4, h5⟩
  constructor
  · intro s2 k hcall hk hskip
    rw [initCQT, if_neg hguard] at hcall
    dsimp only at hcall
    rw [hempR, hempI, resizeBank_nil] at hcall
    obtain ⟨e1, e2⟩ := initCQTLoop_skip_getD nz bpo sR mF (cqtQ bpo) k hskip
      (List.range (bpo * oct).toNat)
      { s with
        cqtKernelReal := List.replicate (bpo * oct).toNat (List.replicate nz.toNat 0)
        cqtKernelImag := List.replicate (bpo * oct).toNat (List.replicate nz.toNat 0) }
    rw [hcall] at e1 e2
    dsimp only at e1 e2
    rw [e1, e2]
    exact ⟨getD_replicate_of_lt _ hk, getD_replicate_of_lt _ hk⟩
  · intro hall
    rw [initCQT, if_neg hguard]
    dsimp only
    exact initCQTLoop_all_skip nz bpo sR mF (cqtQ bpo) _ _
      fun j hj => hall j (List.mem_range.mp hj)

theorem initCQT_skipped_bins_witness :
    ((0 : ℤ) < 1 ∧ (0 : ℤ) < 1 ∧ (0 : ℤ) < 1 ∧ (0 : ℝ) < 2 ∧ (0 : ℝ) < 2 ∧
      initialState.cqtKernelReal = [] ∧ initialState.cqtKernelImag = []) ∧
    (initCQT initialState 1 1 1 2 2).1 = true := by
  refine ⟨⟨by norm_num, by norm_num, by norm_num, by norm_num, by norm_num,
    rfl, rfl⟩, ?_⟩
  refine (initCQT_skipped_bins initialState 1 1 1 2 2 (by norm_num) (by norm_num)
    (by norm_num) (by norm_num) (by norm_num) rfl rfl).2 ?_
  intro j hj
  have h1 : ((1 : ℤ) * 1).toNat = 1 := rfl
  rw [h1] at hj
  have h0 : j = 0 := by omega
  subst h0
  exact Or.inr (by rw [cqtFreq_one_two_zero]; norm_num)

/-! ### The bit-reversal table is an involution -/

theorem isPowerOfTwo_pow (m : ℕ) : isPowerOfTwo ((2 : ℤ) ^ m) = true :=
  (isPowerOfTwo_iff _).mpr ⟨m, rfl⟩

theorem toNat_two_pow (m : ℕ) : ((2 : ℤ) ^ m).toNat = 2 ^ m := by
  rw [show ((2 : ℤ) ^ m) = ((2 ^ m : ℕ) : ℤ) by push_cast; ring, Int.toNat_natCast]

/-- C4: the bit-reversal index table built by `initFFT(n)` for `n = 2^m`
maps `[0, n)` into `[0, n)` and is self-inverse: `table[table[i]] = i`. -/
theorem bit_reversal_table_involution (s : EngineState) (m i : ℕ)
    (hi : i < 2 ^ m) :
    ∃ tbl : ℕ → ℕ, (initFFT s ((2 : ℤ) ^ m)).2.bitReversalIndices = some tbl ∧
      tbl i < 2 ^ m ∧ tbl (tbl i) = i := by
  unfold initFFT
  rw [isPowerOfTwo_pow m]
  dsimp only
  rw [if_pos rfl]
  dsimp only
  refine ⟨_, rfl, ?_, ?_⟩
  · rw [toNat_two_pow, if_pos hi, buildBitrev_getD hi]
    exact bitRev_lt m i
  · rw [toNat_two_pow, if_pos hi, buildBitrev_getD hi,
      if_pos (bitRev_lt m i), buildBitrev_getD (bitRev_lt m i),
      bitRev_bitRev hi]

theorem bit_reversal_table_involution_witness :
    (5 < 2 ^ 3) ∧
    (∃ tbl : ℕ → ℕ,
      (initFFT initialState ((2 : ℤ) ^ 3)).2.bitReversalIndices = some tbl ∧
      tbl 5 < 2 ^ 3 ∧ tbl (tbl 5) = 5) :=
  ⟨by norm_num, bit_reversal_table_involution initialState 3 5 (by norm_num)⟩

/-! ### The forward transform computes the DFT: complex bridge -/

/-- The complex value held by a pair of real/imaginary buffers at index `k`. -/
def toC (q : Buf × Buf) (k : ℕ) : ℂ := ⟨q.1 k, q.2 k⟩

/-- The complex twiddle entry `twiddleReal[t] + i·twiddleImag[t]`. -/
def twC (twR twI : ℕ → ℝ) (t : ℕ) : ℂ := ⟨twR t, twI t⟩

/-- The principal DFT root `exp(-2πi/n)` used by the engine. -/
noncomputable def dftRoot (n : ℕ) : ℂ :=
  Complex.exp (-(2 * Real.pi * Complex.I) / n)

/-- The (unnormalised) discrete Fourier transform of length `n`. -/
noncomputable def dft (n : ℕ) (x : ℕ → ℂ) (k : ℕ) : ℂ :=
  ∑ j ∈ Finset.range n, x j * dftRoot n ^ (j * k)

theorem dftRoot_pow (n a : ℕ) :
    dftRoot n ^ a = Complex.exp ((a : ℂ) * (-(2 * Real.pi * Complex.I) / n)) := by
  rw [dftRoot, Complex.exp_nat_mul]

theorem dftRoot_pow_self {n : ℕ} (hn : 0 < n) : dftRoot n ^ n = 1 := by
  rw [dftRoot_pow]
  have hne : (n : ℂ) ≠ 0 := Nat.cast_ne_zero.mpr (by omega)
  have he : (n : ℂ) * (-(2 * Real.pi * Complex.I) / n) =
      (-1 : ℤ) * (2 * Real.pi * Complex.I) := by
    field_simp
    ring
  rw [he, Complex.exp_int_mul_two_pi_mul_I]

theorem dftRoot_pow_half (m : ℕ) : dftRoot (2 ^ (m + 1)) ^ (2 ^ m) = -1 := by
  rw [dftRoot_pow]
  have h2 : ((2 : ℂ)) ≠ 0 := by norm_num
  have h3 : ((2 : ℂ) ^ m) ≠ 0 := pow_ne_zero _ h2
  have he : ((2 ^ m : ℕ) : ℂ) * (-(2 * Real.pi * Complex.I) / ((2 ^ (m + 1) : ℕ) : ℂ)) =
      -(Real.pi * Complex.I) := by
    push_cast
    rw [pow_succ]
    field_simp
    ring
  rw [he]
  rw [show -((Real.pi : ℂ) * Complex.I) = -(Real.pi : ℂ) * Complex.I by ring]
  rw [Complex.exp_mul_I]
  simp [Complex.cos_neg, Complex.sin_neg, Complex.cos_pi, Complex.sin_pi]

/-- Powers of the root are `n`-periodic. -/
theorem dftRoot_pow_add {n : ℕ} (hn : 0 < n) (a b : ℕ) :
    dftRoot n ^ (a + n * b) = dftRoot n ^ a := by
  rw [pow_add, pow_mul, dftRoot_pow_self hn, one_pow, mul_one]

/-- The twiddle entries written by initFFT are powers of the DFT root. -/
theorem twiddle_cos_sin (n a : ℕ) (hn : 0 < n) :
    (⟨Real.cos (-2 * Real.pi * a / n), Real.sin (-2 * Real.pi * a / n)⟩ : ℂ) =
      dftRoot n ^ a := by
  rw [dftRoot_pow, Complex.mk_eq_add_mul_I]
  have he : ((a : ℂ)) * (-(2 * Real.pi * Complex.I) / n) =
      ((-2 * Real.pi * a / n : ℝ) : ℂ) * Complex.I := by
    push_cast
    ring
  rw [he, Complex.exp_mul_I]
  rw [← Complex.ofReal_cos, ← Complex.ofReal_sin]

/-- One butterfly in complex form: with `t = twiddle[j·step]`, position
`i+j` becomes `even + t·odd` and position `i+j+half` becomes
`even - t·odd`; all other positions are untouched. -/
theorem butterflyC (twR twI : ℕ → ℝ) (step half i j : ℕ) (hhalf : 0 < half)
    (q : Buf × Buf) (k : ℕ) :
    toC (butterfly twR twI step half i q j) k =
      if k = i + j then
        toC q (i + j) + twC twR twI (j * step) * toC q (i + j + half)
      else if k = i + j + half then
        toC q (i + j) - twC twR twI (j * step) * toC q (i + j + half)
      else toC q k := by
  unfold butterfly toC twC upd
  dsimp only
  split_ifs <;>
    first
      | omega
      | (apply Complex.ext <;> simp [Complex.mul_re, Complex.mul_im] <;> try ring)

/-! ### The swap pass applies the bit-reversal permutation -/

/-- Single-buffer form of the swap loop (the pair loop acts componentwise). -/
def swapFold (rev : ℕ → ℕ) (t : ℕ) (f : Buf) : Buf :=
  (List.range t).foldl
    (fun g i => if i < rev i then upd (upd g i (g (rev i))) (rev i) (g i) else g) f

theorem swapFold_succ (rev : ℕ → ℕ) (t : ℕ) (f : Buf) :
    swapFold rev (t + 1) f =
      (fun g i => if i < rev i then upd (upd g i (g (rev i))) (rev i) (g i) else g)
        (swapFold rev t f) t := by
  unfold swapFold
  rw [List.range_succ, List.foldl_append]
  rfl


theorem bitrevPermute_pair (rev : ℕ → ℕ) (p : Buf × Buf) : ∀ t,
    bitrevPermute rev t p = (swapFold rev t p.1, swapFold rev t p.2) := by
  intro t
  induction t with
  | zero => rfl
  | succ t ih =>
    rw [swapFold_succ, swapFold_succ]
    unfold bitrevPermute at ih ⊢
    rw [List.range_succ, List.foldl_append]
    simp only [List.foldl_cons, List.foldl_nil]
    rw [ih]
    dsimp only
    by_cases hswap : t < rev t
    · rw [if_pos hswap, if_pos hswap, if_pos hswap]
    · rw [if_neg hswap, if_neg hswap, if_neg hswap]

theorem swapFold_eval (rev : ℕ → ℕ) (n : ℕ)
    (hlt : ∀ i, i < n → rev i < n) (hinv : ∀ i, i < n → rev (rev i) = i)
    (f : Buf) : ∀ t, t ≤ n → ∀ k,
    swapFold rev t f k = if k < n ∧ min k (rev k) < t then f (rev k) else f k := by
  intro t
  induction t with
  | zero =>
    intro _ k
    rw [if_neg (by omega)]
    rfl
  | succ t ih =>
    intro ht k
    have htn : t < n := by omega
    rw [swapFold_succ]
    dsimp only
    by_cases hswap : t < rev t
    · rw [if_pos hswap]
      rcases eq_or_ne k (rev t) with hk1 | hk1
      · subst hk1
        rw [upd_same, ih (by omega) t, if_neg (by omega),
          if_pos (by
            refine ⟨hlt t htn, ?_⟩
            rw [hinv t htn]
            omega),
          hinv t htn]
      · rw [upd_ne _ _ hk1]
        rcases eq_or_ne k t with hk2 | hk2
        · subst hk2
          rw [upd_same, ih (by omega) (rev k), if_neg (by rw [hinv k htn]; omega),
            if_pos ⟨htn, by omega⟩]
        · rw [upd_ne _ _ hk2, ih (by omega) k]
          by_cases hkn : k < n
          · have hnot : rev k ≠ t := by
              intro he
              have h3 : rev (rev k) = rev t := by rw [he]
              rw [hinv k hkn] at h3
              exact hk1 h3
            by_cases hmin : min k (rev k) < t
            · rw [if_pos ⟨hkn, hmin⟩, if_pos ⟨hkn, by omega⟩]
            · rw [if_neg (by rintro ⟨a, b⟩; omega),
                if_neg (by rintro ⟨a, b⟩; omega)]
          · rw [if_neg (by omega), if_neg (by omega)]
    · rw [if_neg hswap, ih (by omega) k]
      by_cases hkn : k < n
      · by_cases hmin : min k (rev k) < t
        · rw [if_pos ⟨hkn, hmin⟩, if_pos ⟨hkn, by omega⟩]
        · by_cases hmt : min k (rev k) = t
          · have hrk : rev k = k := by
              rcases eq_or_ne k t with h1 | h1
              · subst h1
                omega
              · have h2 : rev k = t := by omega
                have h3 : k = rev t := by rw [← h2, hinv k hkn]
                omega
            rw [if_neg (by rintro ⟨a, b⟩; omega), if_pos ⟨hkn, by omega⟩, hrk]
          · rw [if_neg (by rintro ⟨a, b⟩; omega),
              if_neg (by rintro ⟨a, b⟩; omega)]
      · rw [if_neg (by omega), if_neg (by omega)]

/-! ### Evaluating one butterfly stage -/

/-- The inner `for (j = 0; j < half; j++)` loop of one block, stopped after
`J` iterations. -/
def innerFold (twR twI : ℕ → ℝ) (step half i J : ℕ) (q : Buf × Buf) : Buf × Buf :=
  (List.range J).foldl (butterfly twR twI step half i) q

theorem innerFold_eval (twR twI : ℕ → ℝ) (step half i : ℕ) (hhalf : 0 < half)
    (q : Buf × Buf) : ∀ J, J ≤ half →
    (∀ j, j < J → toC (innerFold twR twI step half i J q) (i + j) =
      toC q (i + j) + twC twR twI (j * step) * toC q (i + j + half)) ∧
    (∀ j, j < J → toC (innerFold twR twI step half i J q) (i + j + half) =
      toC q (i + j) - twC twR twI (j * step) * toC q (i + j + half)) ∧
    (∀ k, (∀ j, j < J → k ≠ i + j ∧ k ≠ i + j + half) →
      toC (innerFold twR twI step half i J q) k = toC q k) := by
  intro J
  induction J with
  | zero => exact fun _ => ⟨fun j hj => by omega, fun j hj => by omega, fun k _ => rfl⟩
  | succ J ih =>
    intro hJ
    obtain ⟨ihA, ihB, ihC⟩ := ih (by omega)
    have hstep : innerFold twR twI step half i (J + 1) q =
        butterfly twR twI step half i (innerFold twR twI step half i J q) J := by
      unfold innerFold
      rw [List.range_succ, List.foldl_append]
      rfl
    refine ⟨?_, ?_, ?_⟩
    · intro j hj
      rw [hstep, butterflyC twR twI step half i J hhalf]
      rcases eq_or_ne j J with rfl | hjJ
      · rw [if_pos rfl,
          ihC (i + j) (fun j2 hj2 => ⟨by omega, by omega⟩),
          ihC (i + j + half) (fun j2 hj2 => ⟨by omega, by omega⟩)]
      · rw [if_neg (by omega), if_neg (by omega)]
        exact ihA j (by omega)
    · intro j hj
      rw [hstep, butterflyC twR twI step half i J hhalf]
      rcases eq_or_ne j J with rfl | hjJ
      · rw [if_neg (by omega), if_pos rfl,
          ihC (i + j) (fun j2 hj2 => ⟨by omega, by omega⟩),
          ihC (i + j + half) (fun j2 hj2 => ⟨by omega, by omega⟩)]
      · rw [if_neg (by omega), if_neg (by omega)]
        exact ihB j (by omega)
    · intro k hk
      rw [hstep, butterflyC twR twI step half i J hhalf]
      obtain ⟨hA1, hA2⟩ := hk J (by omega)
      rw [if_neg hA1, if_neg hA2]
      exact ihC k fun j2 hj2 => hk j2 (by omega)

/-- The outer `for (i = 0; i < n; i += len)` loop, stopped after `B` blocks. -/
def blocksFold (twR twI : ℕ → ℝ) (n len B : ℕ) (q : Buf × Buf) : Buf × Buf :=
  ((List.range B).map (fun b => b * len)).foldl
    (fun q2 i => innerFold twR twI (n / len) (len / 2) i (len / 2) q2) q

theorem stagePass_eq_blocksFold (twR twI : ℕ → ℝ) (n len : ℕ) (q : Buf × Buf) :
    stagePass twR twI n len q =
      blocksFold twR twI n len ((n + len - 1) / len) q := rfl

theorem blocksFold_succ (twR twI : ℕ → ℝ) (n len B : ℕ) (q : Buf × Buf) :
    blocksFold twR twI n len (B + 1) q =
      innerFold twR twI (n / len) (len / 2) (B * len) (len / 2)
        (blocksFold twR twI n len B q) := by
  unfold blocksFold
  rw [List.range_succ, List.map_append, List.foldl_append]
  rfl

theorem blocksFold_eval (twR twI : ℕ → ℝ) (n len : ℕ) (half : ℕ)
    (hhalf : 0 < half) (hlen : len = 2 * half) (q : Buf × Buf) : ∀ B,
    (∀ b j, b < B → j < half →
      toC (blocksFold twR twI n len B q) (b * len + j) =
        toC q (b * len + j) +
          twC twR twI (j * (n / len)) * toC q (b * len + j + half)) ∧
    (∀ b j, b < B → j < half →
      toC (blocksFold twR twI n len B q) (b * len + j + half) =
        toC q (b * len + j) -
          twC twR twI (j * (n / len)) * toC q (b * len + j + half)) ∧
    (∀ k, B * len ≤ k → toC (blocksFold twR twI n len B q) k = toC q k) := by
  have hh2 : len / 2 = half := by omega
  intro B
  induction B with
  | zero => exact ⟨fun b j hb => by omega, fun b j hb => by omega, fun k _ => rfl⟩
  | succ B ih =>
    obtain ⟨ihA, ihB, ihC⟩ := ih
    obtain ⟨jA, jB, jC⟩ := innerFold_eval twR twI (n / len) (len / 2) (B * len)
      (by omega) (blocksFold twR twI n len B q) (len / 2) (le_refl _)
    rw [hh2] at jA jB jC
    have eB1 : (B + 1) * len = B * len + len := by ring
    refine ⟨?_, ?_, ?_⟩
    · intro b j hb hj
      rw [blocksFold_succ, hh2]
      rcases eq_or_ne b B with rfl | hbB
      · rw [jA j hj, ihC (b * len + j) (by omega),
          ihC (b * len + j + half) (by omega)]
      · have hblt : b < B := by omega
        have hble : (b + 1) * len ≤ B * len := Nat.mul_le_mul_right _ (by omega)
        have eb1 : (b + 1) * len = b * len + len := by ring
        rw [jC (b * len + j) (fun j2 hj2 => ⟨by omega, by omega⟩)]
        exact ihA b j hblt hj
    · intro b j hb hj
      rw [blocksFold_succ, hh2]
      rcases eq_or_ne b B with rfl | hbB
      · rw [jB j hj, ihC (b * len + j) (by omega),
          ihC (b * len + j + half) (by omega)]
      · have hblt : b < B := by omega
        have hble : (b + 1) * len ≤ B * len := Nat.mul_le_mul_right _ (by omega)
        have eb1 : (b + 1) * len = b * len + len := by ring
        rw [jC (b * len + j + half) (fun j2 hj2 => ⟨by omega, by omega⟩)]
        exact ihB b j hblt hj
    · intro k hk
      rw [blocksFold_succ, hh2]
      rw [jC k (fun j2 hj2 => ⟨by omega, by omega⟩)]
      exact ihC k (by omega)

/-! ### The stage invariant -/

theorem sum_range_even_odd (f : ℕ → ℂ) : ∀ L : ℕ,
    ∑ v ∈ Finset.range (2 * L), f v =
      ∑ u ∈ Finset.range L, (f (2 * u) + f (2 * u + 1)) := by
  intro L
  induction L with
  | zero => simp
  | succ L ih =>
    have h2 : 2 * (L + 1) = (2 * L + 1) + 1 := by ring
    rw [h2, Finset.sum_range_succ, Finset.sum_range_succ, ih, Finset.sum_range_succ]
    ring

theorem bitRev_double (s u : ℕ) : bitRev (s + 1) (2 * u) = bitRev s u := by
  show ((2 * u) % 2) * 2 ^ s + bitRev s ((2 * u) / 2) = bitRev s u
  rw [Nat.mul_mod_right, Nat.zero_mul, Nat.zero_add]
  congr 1
  omega

theorem bitRev_double_succ (s u : ℕ) :
    bitRev (s + 1) (2 * u + 1) = 2 ^ s + bitRev s u := by
  show ((2 * u + 1) % 2) * 2 ^ s + bitRev s ((2 * u + 1) / 2) = 2 ^ s + bitRev s u
  have h1 : (2 * u + 1) % 2 = 1 := by omega
  have h2 : (2 * u + 1) / 2 = u := by omega
  rw [h1, h2, Nat.one_mul]

/-- After the stages of length up to `2^s`, each block of size `2^s` holds
the DFT of its bit-reversed-order slice of the permuted input `x`. -/
def stageInv (x : ℕ → ℂ) (m s : ℕ) (q : Buf × Buf) : Prop :=
  ∀ b t, b < 2 ^ (m - s) → t < 2 ^ s →
    toC q (b * 2 ^ s + t) =
      ∑ u ∈ Finset.range (2 ^ s),
        x (b * 2 ^ s + bitRev s u) * dftRoot (2 ^ m) ^ (t * u * 2 ^ (m - s))

theorem stageInv_step (x : ℕ → ℂ) (m s : ℕ) (hs : s < m) (twR twI : ℕ → ℝ)
    (htw : ∀ a, a < 2 ^ m / 2 → twC twR twI a = dftRoot (2 ^ m) ^ a)
    (q : Buf × Buf) (hq : stageInv x m s q) :
    stageInv x m (s + 1) (stagePass twR twI (2 ^ m) (2 ^ (s + 1)) q) := by
  intro b' t' hb' ht'
  have hm1 : 1 ≤ m := by omega
  have hlen : (2 : ℕ) ^ (s + 1) = 2 * 2 ^ s := by rw [pow_succ]; ring
  have hhalf : 0 < (2 : ℕ) ^ s := Nat.two_pow_pos s
  have hstep : (2 : ℕ) ^ m / 2 ^ (s + 1) = 2 ^ (m - s - 1) := by
    rw [Nat.pow_div (by omega) (by norm_num)]
    congr 1
  have hms : (2 : ℕ) ^ (m - s) = 2 * 2 ^ (m - s - 1) := by
    rw [← pow_succ']
    congr 1
    omega
  have h2m : (2 : ℕ) ^ s * 2 ^ (m - s) = 2 ^ m := by
    rw [← pow_add]
    congr 1
    omega
  have h2m1 : (2 : ℕ) ^ s * 2 ^ (m - s - 1) = 2 ^ (m - 1) := by
    rw [← pow_add]
    congr 1
    omega
  have hmsplit : (2 : ℕ) ^ (m - s) = 2 ^ (m - s - 1) * 2 := by
    rw [hms]
    ring
  have hblocks : ((2 : ℕ) ^ m + 2 ^ (s + 1) - 1) / 2 ^ (s + 1) = 2 ^ (m - s - 1) := by
    obtain ⟨c, hc⟩ := (pow_dvd_pow 2 (show s + 1 ≤ m by omega) : (2 : ℕ) ^ (s + 1) ∣ 2 ^ m)
    have hpos := Nat.two_pow_pos (s + 1)
    have hcv : c = 2 ^ (m - s - 1) := by
      have h1 : (2 : ℕ) ^ m / 2 ^ (s + 1) = c := by
        rw [hc, Nat.mul_div_cancel_left _ hpos]
      rw [← h1, hstep]
    rw [hc, show 2 ^ (s + 1) * c + 2 ^ (s + 1) - 1 = (2 ^ (s + 1) - 1) + 2 ^ (s + 1) * c
        from by omega,
      Nat.add_mul_div_left _ _ hpos, Nat.div_eq_of_lt (by omega)]
    omega
  have hb'2 : b' < 2 ^ (m - s - 1) := by
    have : m - (s + 1) = m - s - 1 := by omega
    rw [← this]
    exact hb'
  obtain ⟨eA, eB, eC⟩ := blocksFold_eval twR twI (2 ^ m) (2 ^ (s + 1)) (2 ^ s)
    hhalf hlen q (2 ^ (m - s - 1))
  rw [stagePass_eq_blocksFold, hblocks]
  have htww : ∀ j : ℕ, j < 2 ^ s →
      twC twR twI (j * (2 ^ m / 2 ^ (s + 1))) = dftRoot (2 ^ m) ^ (j * 2 ^ (m - s - 1)) := by
    intro j hj
    rw [hstep]
    apply htw
    have hh : (2 : ℕ) ^ m / 2 = 2 ^ (m - 1) := by
      have h3 : (2 : ℕ) ^ m = 2 ^ (m - 1) * 2 := by
        rw [← pow_succ]
        congr 1
        omega
      rw [h3, Nat.mul_div_cancel _ (by norm_num)]
    rw [hh, ← h2m1]
    exact Nat.mul_lt_mul_of_lt_of_le hj (le_refl _) (Nat.two_pow_pos (m - s - 1))
  have hq1 : ∀ j, j < 2 ^ s → toC q (b' * 2 ^ (s + 1) + j) =
      ∑ u ∈ Finset.range (2 ^ s), x ((2 * b') * 2 ^ s + bitRev s u) *
        dftRoot (2 ^ m) ^ (j * u * 2 ^ (m - s)) := by
    intro j hj
    rw [show b' * 2 ^ (s + 1) = (2 * b') * 2 ^ s from by rw [hlen]; ring]
    exact hq (2 * b') j (by rw [hms]; omega) hj
  have hq2 : ∀ j, j < 2 ^ s → toC q (b' * 2 ^ (s + 1) + j + 2 ^ s) =
      ∑ u ∈ Finset.range (2 ^ s), x ((2 * b' + 1) * 2 ^ s + bitRev s u) *
        dftRoot (2 ^ m) ^ (j * u * 2 ^ (m - s)) := by
    intro j hj
    rw [show b' * 2 ^ (s + 1) + j + 2 ^ s = (2 * b' + 1) * 2 ^ s + j
        from by rw [hlen]; ring]
    exact hq (2 * b' + 1) j (by rw [hms]; omega) hj
  have hsplit : ∑ u ∈ Finset.range (2 ^ (s + 1)),
        x (b' * 2 ^ (s + 1) + bitRev (s + 1) u) *
          dftRoot (2 ^ m) ^ (t' * u * 2 ^ (m - (s + 1))) =
      (∑ u ∈ Finset.range (2 ^ s), x ((2 * b') * 2 ^ s + bitRev s u) *
        dftRoot (2 ^ m) ^ (t' * u * 2 ^ (m - s))) +
      dftRoot (2 ^ m) ^ (t' * 2 ^ (m - s - 1)) *
      (∑ u ∈ Finset.range (2 ^ s), x ((2 * b' + 1) * 2 ^ s + bitRev s u) *
        dftRoot (2 ^ m) ^ (t' * u * 2 ^ (m - s))) := by
    have hmms : m - (s + 1) = m - s - 1 := by omega
    rw [hlen, sum_range_even_odd, Finset.sum_add_distrib, Finset.mul_sum]
    congr 1
    · apply Finset.sum_congr rfl
      intro u _
      rw [bitRev_double,
        show b' * (2 * 2 ^ s) + bitRev s u = (2 * b') * 2 ^ s + bitRev s u
          from by ring]
      congr 1
      rw [hmms]
      rw [show t' * (2 * u) * 2 ^ (m - s - 1) = t' * u * (2 ^ (m - s - 1) * 2)
          from by ring, ← hmsplit]
    · apply Finset.sum_congr rfl
      intro u _
      rw [bitRev_double_succ,
        show b' * (2 * 2 ^ s) + (2 ^ s + bitRev s u) = (2 * b' + 1) * 2 ^ s + bitRev s u
          from by ring]
      rw [hmms, show t' * (2 * u + 1) * 2 ^ (m - s - 1) =
          t' * 2 ^ (m - s - 1) + t' * u * (2 ^ (m - s - 1) * 2) from by ring,
        ← hmsplit, pow_add]
      ring
  rcases Nat.lt_or_ge t' (2 ^ s) with hlt | hge
  · rw [eA b' t' hb'2 hlt, hsplit, hq1 t' hlt, hq2 t' hlt, htww t' hlt]
  · have hjlt : t' - 2 ^ s < 2 ^ s := by
      rw [hlen] at ht'
      omega
    have hpose : b' * 2 ^ (s + 1) + t' = b' * 2 ^ (s + 1) + (t' - 2 ^ s) + 2 ^ s := by
      rw [hlen] at ht'
      omega
    rw [hpose, eB b' (t' - 2 ^ s) hb'2 hjlt, hsplit,
      hq1 (t' - 2 ^ s) hjlt, hq2 (t' - 2 ^ s) hjlt, htww (t' - 2 ^ s) hjlt]
    have hperiod : ∀ u : ℕ, dftRoot (2 ^ m) ^ (t' * u * 2 ^ (m - s)) =
        dftRoot (2 ^ m) ^ ((t' - 2 ^ s) * u * 2 ^ (m - s)) := by
      intro u
      rw [show t' * u * 2 ^ (m - s) = (t' - 2 ^ s) * u * 2 ^ (m - s) + 2 ^ m * u
          from by
            have he : t' = (t' - 2 ^ s) + 2 ^ s := by omega
            rw [← h2m]
            conv_lhs => rw [he]
            ring,
        dftRoot_pow_add (Nat.two_pow_pos m)]
    have hminus : dftRoot (2 ^ m) ^ (t' * 2 ^ (m - s - 1)) =
        -dftRoot (2 ^ m) ^ ((t' - 2 ^ s) * 2 ^ (m - s - 1)) := by
      rw [show t' * 2 ^ (m - s - 1) = (t' - 2 ^ s) * 2 ^ (m - s - 1) + 2 ^ s * 2 ^ (m - s - 1)
          from by
            have he : t' = (t' - 2 ^ s) + 2 ^ s := by omega
            conv_lhs => rw [he]
            ring,
        pow_add, h2m1]
      have hmm : (2 : ℕ) ^ m = 2 ^ ((m - 1) + 1) := by
        congr 1
        omega
      rw [hmm, dftRoot_pow_half (m - 1)]
      ring
    have hsum1 : (∑ u ∈ Finset.range (2 ^ s), x ((2 * b') * 2 ^ s + bitRev s u) *
          dftRoot (2 ^ m) ^ (t' * u * 2 ^ (m - s))) =
        ∑ u ∈ Finset.range (2 ^ s), x ((2 * b') * 2 ^ s + bitRev s u) *
          dftRoot (2 ^ m) ^ ((t' - 2 ^ s) * u * 2 ^ (m - s)) :=
      Finset.sum_congr rfl fun u _ => by rw [hperiod u]
    have hsum2 : (∑ u ∈ Finset.range (2 ^ s), x ((2 * b' + 1) * 2 ^ s + bitRev s u) *
          dftRoot (2 ^ m) ^ (t' * u * 2 ^ (m - s))) =
        ∑ u ∈ Finset.range (2 ^ s), x ((2 * b' + 1) * 2 ^ s + bitRev s u) *
          dftRoot (2 ^ m) ^ ((t' - 2 ^ s) * u * 2 ^ (m - s)) :=
      Finset.sum_congr rfl fun u _ => by rw [hperiod u]
    rw [hsum1, hsum2, hminus]
    ring

theorem stagesFrom_inv (x : ℕ → ℂ) (m : ℕ) (twR twI : ℕ → ℝ)
    (htw : ∀ a, a < 2 ^ m / 2 → twC twR twI a = dftRoot (2 ^ m) ^ a) :
    ∀ d s (q : Buf × Buf), s + d = m → stageInv x m s q →
      stageInv x m m (stagesFrom twR twI (2 ^ m) s q) := by
  intro d
  induction d with
  | zero =>
    intro s q hsm hq
    rw [stagesFrom]
    rw [if_neg (by
      have h1 : (2 : ℕ) ^ m < 2 ^ (s + 1) :=
        Nat.pow_lt_pow_right (by norm_num) (by omega)
      omega)]
    have hs : s = m := by omega
    subst hs
    exact hq
  | succ d ih =>
    intro s q hsm hq
    rw [stagesFrom]
    rw [if_pos (Nat.pow_le_pow_right (by norm_num) (by omega))]
    exact ih (s + 1) _ (by omega) (stageInv_step x m s (by omega) twR twI htw q hq)

/-- The full fft body (permutation followed by the stages) computes the DFT
when the twiddle entries and the index table have their initFFT values. -/
theorem fftRun_dft (m : ℕ) (twR twI : ℕ → ℝ) (rev : ℕ → ℕ)
    (htw : ∀ a, a < 2 ^ m / 2 → twC twR twI a = dftRoot (2 ^ m) ^ a)
    (hrev : ∀ i, i < 2 ^ m → rev i = bitRev m i)
    (q : Buf × Buf) : ∀ k, k < 2 ^ m →
    toC (fftRun twR twI rev (2 ^ m) q) k = dft (2 ^ m) (toC q) k := by
  intro k hk
  have hlt : ∀ i, i < 2 ^ m → rev i < 2 ^ m := by
    intro i hi
    rw [hrev i hi]
    exact bitRev_lt m i
  have hinv : ∀ i, i < 2 ^ m → rev (rev i) = i := by
    intro i hi
    rw [hrev i hi, hrev (bitRev m i) (bitRev_lt m i), bitRev_bitRev hi]
  have hp : ∀ j, j < 2 ^ m →
      toC (bitrevPermute rev (2 ^ m) q) j = toC q (bitRev m j) := by
    intro j hj
    unfold toC
    rw [bitrevPermute_pair]
    dsimp only
    rw [swapFold_eval rev (2 ^ m) hlt hinv q.1 (2 ^ m) (le_refl _) j,
      swapFold_eval rev (2 ^ m) hlt hinv q.2 (2 ^ m) (le_refl _) j,
      if_pos ⟨hj, by omega⟩, if_pos ⟨hj, by omega⟩, hrev j hj]
  have hbase : stageInv (toC (bitrevPermute rev (2 ^ m) q)) m 0
      (bitrevPermute rev (2 ^ m) q) := by
    intro b t hb ht
    have ht0 : t = 0 := by omega
    subst ht0
    rw [pow_zero, Finset.sum_range_one, show bitRev 0 0 = 0 from rfl]
    norm_num
  have hfin := stagesFrom_inv (toC (bitrevPermute rev (2 ^ m) q)) m twR twI htw
    m 0 (bitrevPermute rev (2 ^ m) q) (by omega) hbase
  have h1 := hfin 0 k (by rw [Nat.sub_self]; norm_num) hk
  rw [Nat.zero_mul, Nat.zero_add] at h1
  unfold fftRun
  rw [h1]
  unfold dft
  apply Finset.sum_congr rfl
  intro u hu
  have hu2 : u < 2 ^ m := Finset.mem_range.mp hu
  rw [Nat.zero_add, hp (bitRev m u) (bitRev_lt m u),
    bitRev_bitRev hu2, Nat.sub_self]
  congr 1
  rw [pow_zero, Nat.mul_one, Nat.mul_comm]

/-- fft on the state built by `initFFT(2^m)` succeeds and computes the DFT
of the caller's buffers, leaving the engine state unchanged. -/
theorem fft_init_dft (s0 : EngineState) (m : ℕ) (re im : Buf) :
    (fft (initFFT s0 ((2 : ℤ) ^ m)).2 re im ((2 : ℤ) ^ m)).1 = true ∧
    ∀ k, k < 2 ^ m →
      (fft (initFFT s0 ((2 : ℤ) ^ m)).2 re im ((2 : ℤ) ^ m)).2.1 k =
        (dft (2 ^ m) (toC (re, im)) k).re ∧
      (fft (initFFT s0 ((2 : ℤ) ^ m)).2 re im ((2 : ℤ) ^ m)).2.2.1 k =
        (dft (2 ^ m) (toC (re, im)) k).im := by
  unfold initFFT
  rw [isPowerOfTwo_pow m]
  rw [if_pos rfl]
  dsimp only
  unfold fft
  dsimp only
  rw [isPowerOfTwo_pow m]
  rw [if_pos rfl, toNat_two_pow m]
  refine ⟨rfl, fun k hk => ?_⟩
  have htw : ∀ a, a < 2 ^ m / 2 →
      twC (fun i => if i < 2 ^ m / 2 then Real.cos (-2 * Real.pi * i / (2 ^ m : ℕ)) else 0)
        ((Option.getD (some fun i =>
          if i < 2 ^ m / 2 then Real.sin (-2 * Real.pi * i / (2 ^ m : ℕ)) else 0)
          fun _ => 0)) a = dftRoot (2 ^ m) ^ a := by
    intro a ha
    unfold twC
    dsimp only [Option.getD]
    rw [if_pos ha, if_pos ha]
    exact twiddle_cos_sin (2 ^ m) a (Nat.two_pow_pos m)
  have hrev : ∀ i, i < 2 ^ m →
      (fun i => if i < 2 ^ m then (buildBitrev (2 ^ m)).getD i 0 else 0) i =
        bitRev m i := by
    intro i hi
    dsimp only
    rw [if_pos hi, buildBitrev_getD hi]
  have h := fftRun_dft m _ _ _ htw hrev (re, im) k hk
  exact ⟨congrArg Complex.re h, congrArg Complex.im h⟩

/-- The DFT of the unit impulse is identically 1. -/
theorem dft_impulse (n : ℕ) (hn : 0 < n) (k : ℕ) :
    dft n (fun j => if j = 0 then 1 else 0) k = 1 := by
  unfold dft
  rw [Finset.sum_congr rfl (fun j _ => show
      (if j = 0 then (1 : ℂ) else 0) * dftRoot n ^ (j * k) =
        if j = 0 then dftRoot n ^ (j * k) else 0 from by
    rcases eq_or_ne j 0 with rfl | hj
    · rw [if_pos rfl, if_pos rfl, one_mul]
    · rw [if_neg hj, if_neg hj, zero_mul])]
  rw [Finset.sum_ite_eq' (Finset.range n) 0 (fun j => dftRoot n ^ (j * k))]
  rw [if_pos (Finset.mem_range.mpr hn)]
  norm_num

/-- C3: after a successful `initFFT(n)` with `n = 2^m`, the forward
transform of the unit impulse (`real[0] = 1`, everything else 0) succeeds
and returns `real[k] = 1`, `imag[k] = 0` for every `k < n`; `m = 3` gives
the concrete `initFFT(8)` flat-spectrum scenario. -/
theorem fft_impulse_flat_spectrum (s0 : EngineState) (m : ℕ) :
    (initFFT s0 ((2 : ℤ) ^ m)).1 = true ∧
    (fft (initFFT s0 ((2 : ℤ) ^ m)).2 (fun i => if i = 0 then 1 else 0)
      (fun _ => 0) ((2 : ℤ) ^ m)).1 = true ∧
    ∀ k, k < 2 ^ m →
      (fft (initFFT s0 ((2 : ℤ) ^ m)).2 (fun i => if i = 0 then 1 else 0)
        (fun _ => 0) ((2 : ℤ) ^ m)).2.1 k = 1 ∧
      (fft (initFFT s0 ((2 : ℤ) ^ m)).2 (fun i => if i = 0 then 1 else 0)
        (fun _ => 0) ((2 : ℤ) ^ m)).2.2.1 k = 0 := by
  obtain ⟨hok, hval⟩ := fft_init_dft s0 m (fun i => if i = 0 then 1 else 0) (fun _ => 0)
  have hinit : (initFFT s0 ((2 : ℤ) ^ m)).1 = true := by
    unfold initFFT
    rw [isPowerOfTwo_pow m]
    rw [if_pos rfl]
  refine ⟨hinit, hok, fun k hk => ?_⟩
  obtain ⟨h1, h2⟩ := hval k hk
  have himp : ∀ j, toC ((fun i => if i = 0 then (1 : ℝ) else 0), (fun _ => (0 : ℝ))) j =
      if j = 0 then 1 else 0 := by
    intro j
    unfold toC
    dsimp only
    rcases eq_or_ne j 0 with rfl | hj
    · rw [if_pos rfl, if_pos rfl]
      apply Complex.ext <;> simp
    · rw [if_neg hj, if_neg hj]
      apply Complex.ext <;> simp
  have hdft : dft (2 ^ m) (toC ((fun i => if i = 0 then (1 : ℝ) else 0),
      (fun _ => (0 : ℝ)))) k = 1 := by
    rw [show dft (2 ^ m) (toC ((fun i => if i = 0 then (1 : ℝ) else 0),
        (fun _ => (0 : ℝ)))) k = dft (2 ^ m) (fun j => if j = 0 then 1 else 0) k from
      Finset.sum_congr rfl fun j _ => by rw [himp j]]
    exact dft_impulse (2 ^ m) (Nat.two_pow_pos m) k
  rw [h1, h2, hdft]
  exact ⟨rfl, rfl⟩

/-! ### DFT inversion -/

theorem dft_congr {n : ℕ} {f g : ℕ → ℂ} (h : ∀ j, j < n → f j = g j) (k : ℕ) :
    dft n f k = dft n g k :=
  Finset.sum_congr rfl fun j hj => by rw [h j (Finset.mem_range.mp hj)]

theorem conj_dftRoot_pow (n a : ℕ) :
    (starRingEnd ℂ) (dftRoot n ^ a) =
      Complex.exp ((a : ℂ) * ((2 * Real.pi * Complex.I) / n)) := by
  rw [dftRoot_pow, ← Complex.exp_conj]
  congr 1
  rw [map_mul, map_natCast, map_div₀, map_neg, map_mul, map_mul, Complex.conj_I,
    map_natCast, map_ofNat, Complex.conj_ofReal]
  ring

theorem dftRoot_pow_mul_conj (n a : ℕ) :
    dftRoot n ^ a * (starRingEnd ℂ) (dftRoot n ^ a) = 1 := by
  rw [Complex.mul_conj]
  have h1 : dftRoot n ^ a = Complex.exp (((-2 * Real.pi * a / n : ℝ) : ℂ) * Complex.I) := by
    rw [dftRoot_pow]
    congr 1
    push_cast
    ring
  rw [h1]
  rw [show Complex.normSq (Complex.exp (((-2 * Real.pi * a / n : ℝ) : ℂ) * Complex.I)) =
      Complex.abs (Complex.exp (((-2 * Real.pi * a / n : ℝ) : ℂ) * Complex.I)) ^ 2 from
    Complex.normSq_eq_abs _]
  rw [Complex.abs_exp_ofReal_mul_I]
  norm_num

theorem dft_orthogonality (n : ℕ) (hn : 0 < n) (l k : ℕ) (hl : l < n) (hk : k < n) :
    ∑ j ∈ Finset.range n, dftRoot n ^ (l * j) * (starRingEnd ℂ) (dftRoot n ^ (j * k))
      = if l = k then (n : ℂ) else 0 := by
  have hterm : ∀ j : ℕ, dftRoot n ^ (l * j) * (starRingEnd ℂ) (dftRoot n ^ (j * k)) =
      (dftRoot n ^ l * (starRingEnd ℂ) (dftRoot n ^ k)) ^ j := by
    intro j
    rw [mul_pow, ← pow_mul, ← map_pow, ← pow_mul, Nat.mul_comm k j]
  rw [Finset.sum_congr rfl fun j _ => hterm j]
  rcases eq_or_ne l k with rfl | hne
  · rw [if_pos rfl]
    rw [show dftRoot n ^ l * (starRingEnd ℂ) (dftRoot n ^ l) = 1 from
      dftRoot_pow_mul_conj n l]
    simp
  · rw [if_neg hne]
    set z : ℂ := dftRoot n ^ l * (starRingEnd ℂ) (dftRoot n ^ k) with hz
    have hzn : z ^ n = 1 := by
      rw [hz, mul_pow, ← pow_mul, ← map_pow, ← pow_mul,
        show l * n = n * l from Nat.mul_comm l n,
        show k * n = n * k from Nat.mul_comm k n,
        pow_mul, pow_mul, dftRoot_pow_self hn, one_pow, one_pow, map_one, one_mul]
    have hz1 : z ≠ 1 := by
      intro hcon
      rw [hz, dftRoot_pow, conj_dftRoot_pow, ← Complex.exp_add] at hcon
      have harg : (l : ℂ) * (-(2 * Real.pi * Complex.I) / n) +
          (k : ℂ) * (2 * Real.pi * Complex.I / n) =
          (((k : ℤ) - (l : ℤ) : ℤ) : ℂ) * (2 * Real.pi * Complex.I) / n := by
        push_cast
        ring
      rw [harg] at hcon
      obtain ⟨t, ht⟩ := Complex.exp_eq_one_iff.mp hcon
      have hnne : ((n : ℂ)) ≠ 0 := Nat.cast_ne_zero.mpr (by omega)
      have h2pi : (2 * (Real.pi : ℂ) * Complex.I) ≠ 0 := by
        have hpne : ((Real.pi : ℂ)) ≠ 0 := by
          intro hc
          exact Real.pi_ne_zero (by exact_mod_cast hc)
        simp [Complex.I_ne_zero, hpne]
      have heq : (((k : ℤ) - (l : ℤ) : ℤ) : ℂ) = (t : ℂ) * n := by
        have h3 : (((k : ℤ) - (l : ℤ) : ℤ) : ℂ) * (2 * Real.pi * Complex.I) =
            ((t : ℂ) * n) * (2 * Real.pi * Complex.I) := by
          field_simp at ht
          push_cast at ht ⊢
          linear_combination ht
        exact mul_right_cancel₀ h2pi h3
      have heqz : ((k : ℤ) - (l : ℤ)) = t * n := by
        have := heq
        rw [show ((t : ℂ) * n) = (((t * (n : ℤ)) : ℤ) : ℂ) from by push_cast; ring] at this
        exact_mod_cast this
      have hdne : ((k : ℤ) - (l : ℤ)) ≠ 0 := by
        intro hc
        apply hne
        omega
      have hbound : -(n : ℤ) < (k : ℤ) - (l : ℤ) ∧ (k : ℤ) - (l : ℤ) < n := by omega
      rcases lt_trichotomy t 0 with htn | htz | htp
      · have h4 : t * (n : ℤ) ≤ -1 * n :=
          mul_le_mul_of_nonneg_right (by omega) (by omega)
        omega
      · rw [htz] at heqz
        omega
      · have h4 : 1 * (n : ℤ) ≤ t * n :=
          mul_le_mul_of_nonneg_right (by omega) (by omega)
        omega
    rw [geom_sum_eq hz1, hzn]
    simp

/-- Applying the DFT to the conjugated DFT recovers `n` times the
conjugated input. -/
theorem dft_conj_dft (n : ℕ) (hn : 0 < n) (x : ℕ → ℂ) (k : ℕ) (hk : k < n) :
    (starRingEnd ℂ) (dft n (fun j => (starRingEnd ℂ) (dft n x j)) k) = (n : ℂ) * x k := by
  unfold dft
  rw [map_sum]
  have hstep : ∀ j : ℕ,
      (starRingEnd ℂ) ((starRingEnd ℂ) (∑ l ∈ Finset.range n, x l * dftRoot n ^ (l * j)) *
        dftRoot n ^ (j * k)) =
      ∑ l ∈ Finset.range n, x l * (dftRoot n ^ (l * j) *
        (starRingEnd ℂ) (dftRoot n ^ (j * k))) := by
    intro j
    rw [map_mul, RingHomInvPair.comp_apply_eq]
    rw [Finset.sum_mul]
    apply Finset.sum_congr rfl
    intro l _
    ring
  rw [Finset.sum_congr rfl fun j _ => hstep j, Finset.sum_comm]
  have hinner : ∀ l, l < n →
      (∑ j ∈ Finset.range n, x l * (dftRoot n ^ (l * j) *
        (starRingEnd ℂ) (dftRoot n ^ (j * k)))) =
      x l * if l = k then (n : ℂ) else 0 := by
    intro l hl
    rw [← Finset.mul_sum, dft_orthogonality n hn l k hl hk]
  rw [Finset.sum_congr rfl fun l hl => hinner l (Finset.mem_range.mp hl)]
  rw [Finset.sum_congr rfl (fun l _ => show
      (x l * if l = k then (n : ℂ) else 0) = if l = k then x l * n else 0 from by
    rcases eq_or_ne l k with rfl | hlk
    · rw [if_pos rfl, if_pos rfl]
    · rw [if_neg hlk, if_neg hlk, mul_zero])]
  rw [Finset.sum_ite_eq' (Finset.range n) k (fun l => x l * n),
    if_pos (Finset.mem_range.mpr hk)]
  ring

/-- C1: for `n = 2^m`, after a successful `initFFT(n)`, running `fft` and
then `ifft` on any real/imaginary buffers returns the original contents
exactly (the real-arithmetic idealisation of "within floating-point
tolerance"): `ifft` negates the imaginary buffer, reruns the forward
transform, scales by `1/n` and negates the imaginary part again. -/
theorem fft_ifft_roundtrip (s0 : EngineState) (m : ℕ) (re im : Buf) :
    (initFFT s0 ((2 : ℤ) ^ m)).1 = true ∧
    (fft (initFFT s0 ((2 : ℤ) ^ m)).2 re im ((2 : ℤ) ^ m)).1 = true ∧
    (ifft (initFFT s0 ((2 : ℤ) ^ m)).2
      (fft (initFFT s0 ((2 : ℤ) ^ m)).2 re im ((2 : ℤ) ^ m)).2.1
      (fft (initFFT s0 ((2 : ℤ) ^ m)).2 re im ((2 : ℤ) ^ m)).2.2.1
      ((2 : ℤ) ^ m)).1 = true ∧
    ∀ k, k < 2 ^ m →
      (ifft (initFFT s0 ((2 : ℤ) ^ m)).2
        (fft (initFFT s0 ((2 : ℤ) ^ m)).2 re im ((2 : ℤ) ^ m)).2.1
        (fft (initFFT s0 ((2 : ℤ) ^ m)).2 re im ((2 : ℤ) ^ m)).2.2.1
        ((2 : ℤ) ^ m)).2.1 k = re k ∧
      (ifft (initFFT s0 ((2 : ℤ) ^ m)).2
        (fft (initFFT s0 ((2 : ℤ) ^ m)).2 re im ((2 : ℤ) ^ m)).2.1
        (fft (initFFT s0 ((2 : ℤ) ^ m)).2 re im ((2 : ℤ) ^ m)).2.2.1
        ((2 : ℤ) ^ m)).2.2.1 k = im k := by
  have hinit : (initFFT s0 ((2 : ℤ) ^ m)).1 = true := by
    unfold initFFT
    rw [isPowerOfTwo_pow m]
    rw [if_pos rfl]
  obtain ⟨hf1, hfv⟩ := fft_init_dft s0 m re im
  set s1 := (initFFT s0 ((2 : ℤ) ^ m)).2 with hs1
  set y1 := (fft s1 re im ((2 : ℤ) ^ m)).2.1 with hy1
  set y2 := (fft s1 re im ((2 : ℤ) ^ m)).2.2.1 with hy2
  set imNeg : Buf := fun i => if i < ((2 : ℤ) ^ m).toNat then -y2 i else y2 i
    with hneg
  obtain ⟨hg1, hgv⟩ := fft_init_dft s0 m y1 imNeg
  have hifft : ifft s1 y1 y2 ((2 : ℤ) ^ m) =
      (true,
        (fun i => if i < ((2 : ℤ) ^ m).toNat then
          (fft s1 y1 imNeg ((2 : ℤ) ^ m)).2.1 i * (1 / (((2 : ℤ) ^ m : ℤ) : ℝ))
          else (fft s1 y1 imNeg ((2 : ℤ) ^ m)).2.1 i),
        (fun i => if i < ((2 : ℤ) ^ m).toNat then
          (fft s1 y1 imNeg ((2 : ℤ) ^ m)).2.2.1 i * -(1 / (((2 : ℤ) ^ m : ℤ) : ℝ))
          else (fft s1 y1 imNeg ((2 : ℤ) ^ m)).2.2.1 i),
        (fft s1 y1 imNeg ((2 : ℤ) ^ m)).2.2.2) := by
    unfold ifft
    rw [isPowerOfTwo_pow m]
    rw [if_pos rfl]
    dsimp only
    rw [← hneg, hg1]
    rw [if_pos rfl]
  refine ⟨hinit, hf1, ?_, ?_⟩
  · rw [hifft]
  · intro k hk
    have hkn : k < ((2 : ℤ) ^ m).toNat := by rw [toNat_two_pow]; exact hk
    -- the complex value produced by the inner forward transform
    have hxy : ∀ j, j < 2 ^ m → toC (y1, imNeg) j =
        (starRingEnd ℂ) (dft (2 ^ m) (toC (re, im)) j) := by
      intro j hj
      obtain ⟨e1, e2⟩ := hfv j hj
      unfold toC
      dsimp only
      rw [hneg]
      dsimp only
      rw [if_pos (by rw [toNat_two_pow]; exact hj)]
      rw [e1, e2]
      apply Complex.ext <;> simp <;> rfl
    have hz : ∀ j, j < 2 ^ m →
        dft (2 ^ m) (toC (y1, imNeg)) j =
          dft (2 ^ m) (fun t => (starRingEnd ℂ) (dft (2 ^ m) (toC (re, im)) t)) j := by
      intro j _
      exact dft_congr (fun t ht => hxy t ht) j
    have hmain := dft_conj_dft (2 ^ m) (Nat.two_pow_pos m) (toC (re, im)) k hk
    rw [← hz k hk] at hmain
    obtain ⟨f1, f2⟩ := hgv k hk
    -- real scalar bookkeeping
    have hnR : (((2 : ℤ) ^ m : ℤ) : ℝ) = ((2 ^ m : ℕ) : ℝ) := by push_cast; ring
    have hnne : ((2 ^ m : ℕ) : ℝ) ≠ 0 := by positivity
    have hre : (dft (2 ^ m) (toC (y1, imNeg)) k).re =
        ((2 ^ m : ℕ) : ℝ) * re k := by
      have := congrArg Complex.re hmain
      simp only [Complex.conj_re] at this
      rw [this]
      rw [Complex.mul_re]
      have h2 : ((2 ^ m : ℕ) : ℂ).re = ((2 ^ m : ℕ) : ℝ) := by
        norm_cast
      have h3 : ((2 ^ m : ℕ) : ℂ).im = 0 := by
        norm_cast
      rw [h2, h3]
      show _ = ((2 ^ m : ℕ) : ℝ) * (toC (re, im) k).re
      unfold toC
      dsimp only
      ring
    have him : (dft (2 ^ m) (toC (y1, imNeg)) k).im =
        -(((2 ^ m : ℕ) : ℝ) * im k) := by
      have := congrArg Complex.im hmain
      simp only [Complex.conj_im] at this
      have h4 : (dft (2 ^ m) (toC (y1, imNeg)) k).im =
          -(((2 ^ m : ℕ) : ℂ) * toC (re, im) k).im := by
        rw [← this]
        ring
      rw [h4, Complex.mul_im]
      have h2 : ((2 ^ m : ℕ) : ℂ).re = ((2 ^ m : ℕ) : ℝ) := by norm_cast
      have h3 : ((2 ^ m : ℕ) : ℂ).im = 0 := by norm_cast
      rw [h2, h3]
      show _ = -(((2 ^ m : ℕ) : ℝ) * (toC (re, im) k).im)
      unfold toC
      dsimp only
      ring
    constructor
    · rw [hifft]
      dsimp only
      rw [if_pos hkn, f1, hre, hnR]
      field_simp
    · rw [hifft]
      dsimp only
      rw [if_pos hkn, f2, him, hnR]
      field_simp

theorem fft_impulse_flat_spectrum_witness :
    (5 < 2 ^ 3) ∧
    ((fft (initFFT initialState ((2 : ℤ) ^ 3)).2 (fun i => if i = 0 then 1 else 0)
        (fun _ => 0) ((2 : ℤ) ^ 3)).2.1 5 = 1 ∧
     (fft (initFFT initialState ((2 : ℤ) ^ 3)).2 (fun i => if i = 0 then 1 else 0)
        (fun _ => 0) ((2 : ℤ) ^ 3)).2.2.1 5 = 0) :=
  ⟨by norm_num,
    (fft_impulse_flat_spectrum initialState 3).2.2 5 (by norm_num)⟩

theorem fft_ifft_roundtrip_witness :
    (2 < 2 ^ 2) ∧
    ((ifft (initFFT initialState ((2 : ℤ) ^ 2)).2
        (fft (initFFT initialState ((2 : ℤ) ^ 2)).2 (fun i => (i : ℝ))
          (fun _ => 1) ((2 : ℤ) ^ 2)).2.1
        (fft (initFFT initialState ((2 : ℤ) ^ 2)).2 (fun i => (i : ℝ))
          (fun _ => 1) ((2 : ℤ) ^ 2)).2.2.1
        ((2 : ℤ) ^ 2)).2.1 2 = (fun i => (i : ℝ)) 2 ∧
     (ifft (initFFT initialState ((2 : ℤ) ^ 2)).2
        (fft (initFFT initialState ((2 : ℤ) ^ 2)).2 (fun i => (i : ℝ))
          (fun _ => 1) ((2 : ℤ) ^ 2)).2.1
        (fft (initFFT initialState ((2 : ℤ) ^ 2)).2 (fun i => (i : ℝ))
          (fun _ => 1) ((2 : ℤ) ^ 2)).2.2.1
        ((2 : ℤ) ^ 2)).2.2.1 2 = (fun _ => (1 : ℝ)) 2) :=
  ⟨by norm_num,
    (fft_ifft_roundtrip initialState 2 (fun i => (i : ℝ)) (fun _ => 1)).2.2.2
      2 (by norm_num)⟩
